import Mathlib

/-!
Verification of the content-analysis and fallback-orchestration core of the
rifcare web-summarizer browser extension.

The JavaScript sources (`content_script.js`, `background.js`, `popup.js`) are
shallowly embedded below: every definition is a direct transcription of the
corresponding JavaScript function, with strings modelled as `String` and the
character-level operations carried out on `List Char`.  All definitions are
structurally recursive so that concrete runs reduce inside the kernel.
-/

namespace Rifcare

/-- Characters matched by the JavaScript regex class `\s`
(whitespace as used by `replace(/\s+/g, ' ')`, `split(/\s+/)` and `trim()`). -/
def isJsWs (c : Char) : Bool :=
  c = ' ' || c = '\t' || c = '\n' || c.val = 0x0b || c.val = 0x0c || c = '\r' ||
  c.val = 0xa0 || c.val = 0x1680 || (0x2000 ≤ c.val && c.val ≤ 0x200a) ||
  c.val = 0x2028 || c.val = 0x2029 || c.val = 0x202f || c.val = 0x205f ||
  c.val = 0x3000 || c.val = 0xfeff

/-- Line-break characters matched by the JavaScript regex `/\n|\r/`. -/
def isNL (c : Char) : Bool := c = '\n' || c = '\r'

/-- Sentence-final punctuation of the regex class `[.!?]`. -/
def isPunct (c : Char) : Bool := c = '.' || c = '!' || c = '?'

/-- Characters kept by the regex `replace(/[^a-z0-9\s]/g, '')` after
lower-casing (lower-case letters and digits; whitespace is handled apart). -/
def isLowerAlnum (c : Char) : Bool :=
  ('a' ≤ c && c ≤ 'z') || ('0' ≤ c && c ≤ '9')

/-- Worker for `collapseWS`; the flag records whether the previous character
was whitespace (i.e. whether we are inside a run that already emitted its
single replacement space). -/
def collapseAux (prevWs : Bool) : List Char → List Char
  | [] => []
  | c :: cs =>
    if isJsWs c then
      if prevWs then collapseAux true cs else ' ' :: collapseAux true cs
    else c :: collapseAux false cs

/-- Embedding of `str.replace(/\s+/g, ' ')`: every maximal whitespace run
becomes a single space. -/
def collapseWS (l : List Char) : List Char := collapseAux false l

/-- Embedding of `String.prototype.trim` on character lists. -/
def jsTrim (l : List Char) : List Char :=
  ((l.dropWhile isJsWs).reverse.dropWhile isJsWs).reverse

/-- Embedding of `str.trim()` on strings. -/
def jsTrimStr (s : String) : String := String.mk (jsTrim s.data)

/-- Is the first character of the list a whitespace character?  (The
one-character lookahead of the boundary regex.) -/
def headIsWs : List Char → Bool
  | [] => false
  | d :: _ => isJsWs d

/-- Worker for the sentence split `split(/(?<=[.!?])\s+/)`.  `acc` is the
current piece (reversed); `skipping` records that we are inside the
whitespace run of a separator match, whose characters are consumed. -/
def sapAux (skipping : Bool) (acc : List Char) : List Char → List (List Char)
  | [] => [acc.reverse]
  | c :: cs =>
    if skipping && isJsWs c then sapAux true acc cs
    else if isPunct c && headIsWs cs then
      (acc.reverse ++ [c]) :: sapAux true [] cs
    else sapAux false (c :: acc) cs

/-- Embedding of `str.split(/(?<=[.!?])\s+/)`: cut at every maximal
whitespace run immediately preceded by `.`, `!` or `?`; the whitespace is
dropped and the punctuation stays on the preceding piece. -/
def splitAfterPunct (l : List Char) : List (List Char) := sapAux false [] l

/-- The shared sentence segmentation pipeline
`text.replace(/\s+/g, ' ').split(/(?<=[.!?])\s+/).map(s => s.trim()).filter(Boolean)`
(used verbatim in `summarizeText`, `answerQuestion` and `extractiveSummarize`). -/
def segmentSentences (s : String) : List String :=
  ((splitAfterPunct (collapseWS s.data)).map
    (fun l => String.mk (jsTrim l))).filter (fun t => t ≠ "")

/-- Worker for `wsFields`; `acc` is the current (reversed) run of
non-whitespace characters. -/
def wfAux (acc : List Char) : List Char → List (List Char)
  | [] => if acc.isEmpty then [] else [acc.reverse]
  | c :: cs =>
    if isJsWs c then
      if acc.isEmpty then wfAux [] cs else acc.reverse :: wfAux [] cs
    else wfAux (c :: acc) cs

/-- Embedding of `split(/\s+/).filter(Boolean)`: the maximal runs of
non-whitespace characters. -/
def wsFields (l : List Char) : List (List Char) := wfAux [] l

/-- Embedding of the tokenization
`s.toLowerCase().replace(/[^a-z0-9\s]/g, '').split(/\s+/).filter(Boolean)`
used by the frequency scorer. -/
def sentWords (s : String) : List String :=
  (wsFields ((s.data.map Char.toLower).filter
    (fun c => isLowerAlnum c || isJsWs c))).map String.mk

/-- The fixed stopword set of `summarizeText` / `extractiveSummarize`. -/
def stopWords : List String :=
  ["the", "and", "is", "in", "to", "of", "a", "that", "it", "for", "on",
   "with", "as", "are", "was", "by", "an", "be", "this", "or", "from",
   "at", "which", "you"]

/-- All non-stopword token occurrences across the sentence list: the word
frequency table `freqs` maps `w` to `(freqTokens sents).count w`. -/
def freqTokens (sents : List String) : List String :=
  (sents.flatMap sentWords).filter (fun w => !stopWords.contains w)

/-- A sentence's score: the sum over its tokens of the global frequency of
that token (stopwords contribute zero because they are absent from the
table, matching `if (freqs[w]) score += freqs[w]`). -/
def sentScore (sents : List String) (s : String) : Nat :=
  ((sentWords s).map (fun w => (freqTokens sents).count w)).sum

/-- Stable insertion of a scored sentence into a descending-sorted list:
`x` passes over exactly the entries with a strictly higher score, so that
ties keep their original relative order. -/
def insertDesc (x : String × Nat) : List (String × Nat) → List (String × Nat)
  | [] => [x]
  | y :: ys => if x.2 < y.2 then y :: insertDesc x ys else x :: y :: ys

/-- Embedding of `scored.sort((a, b) => b.score - a.score)`.  ECMAScript
`Array.prototype.sort` with a consistent comparator is required to be
stable, which determines its output uniquely: descending by score with
ties in original order.  Stable insertion sort computes exactly that. -/
def jsSortDesc : List (String × Nat) → List (String × Nat)
  | [] => []
  | x :: xs => insertDesc x (jsSortDesc xs)

/-- The score-sorted sentence list
`sents.map(s => ({s, score})).sort((a, b) => b.score - a.score)`. -/
def sortedScored (sents : List String) : List (String × Nat) :=
  jsSortDesc (sents.map (fun s => (s, sentScore sents s)))

/-- Embedding of `s.split(' ').length`: the number of pieces obtained by
splitting at every single space character (empty pieces included). -/
def spaceParts (s : String) : Nat := (s.data.splitOn ' ').length

/-- The highlight-selection loop of `summarizeText` / `extractiveSummarize`:
walk the score-sorted list, stop once `maxHighlights` are collected, skip
sentences already used as bullets and sentences of fewer than 6
space-separated words. -/
def hlLoop (bullets : List String) (maxH : Nat) (acc : List String) :
    List (String × Nat) → List String
  | [] => acc
  | item :: rest =>
    if maxH ≤ acc.length then acc
    else if bullets.contains item.1 then hlLoop bullets maxH acc rest
    else if spaceParts item.1 < 6 then hlLoop bullets maxH acc rest
    else hlLoop bullets maxH (acc ++ [item.1]) rest

/-- Closed form of the padding loop
`while (highlights.length < Math.min(maxHighlights, bullets.length))
highlights.push(bullets[highlights.length] || '')`: the loop appends
`bullets[i] || ''` for `i = acc.length, …, target - 1`. -/
def hlPad (bullets : List String) (target : Nat) (acc : List String) :
    List String :=
  acc ++ ((List.range target).drop acc.length).map (fun i => bullets.getD i "")

/-- The shared core of `summarizeText` and `extractiveSummarize` on an
already-segmented nonempty sentence list: returns `(bullets, highlights)`. -/
def freqCore (sents : List String) (maxBullets maxHighlights : Nat) :
    List String × List String :=
  let scored := sortedScored sents
  let bullets := (scored.take maxBullets).map
    (fun x => String.mk (jsTrim (collapseWS x.1.data)))
  let highlights := hlLoop bullets maxHighlights [] scored
  (bullets, hlPad bullets (min maxHighlights bullets.length) highlights)

/-- `Array.prototype.join('\n')` on character lists. -/
def joinNL : List (List Char) → List Char
  | [] => []
  | [l] => l
  | l :: ls => l ++ '\n' :: joinNL ls

/-- The character data of the wire format emitted by both summarizers:
`bullets.map(b => '- ' + b).join('\n') + '\n\n===HIGHLIGHTS===\n' + highlights.join('\n')`. -/
def wireData (bullets highlights : List String) : List Char :=
  joinNL (bullets.map (fun b => '-' :: ' ' :: b.data))
    ++ "\n\n===HIGHLIGHTS===\n".data
    ++ joinNL (highlights.map String.data)

/-- The wire format emitted by both summarizers, as a string. -/
def composeWire (bullets highlights : List String) : String :=
  String.mk (wireData bullets highlights)

/-- The result object `{bullets, highlights, raw}` of `summarizeText`. -/
structure SummaryResult where
  bullets : List String
  highlights : List String
  raw : String
deriving Repr, DecidableEq

/-- Embedding of `summarizeText(raw, maxBullets = 4, maxHighlights = 4)`
from `content_script.js`. -/
def summarizeText (raw : String) (maxBullets : Nat := 4)
    (maxHighlights : Nat := 4) : SummaryResult :=
  if raw = "" then ⟨[], [], ""⟩
  else
    let sents := segmentSentences raw
    if sents = [] then ⟨[], [], ""⟩
    else
      ⟨(freqCore sents maxBullets maxHighlights).1,
       (freqCore sents maxBullets maxHighlights).2,
       composeWire (freqCore sents maxBullets maxHighlights).1
         (freqCore sents maxBullets maxHighlights).2⟩

/-- Embedding of `extractiveSummarize(rawText, maxBullets = 4,
maxHighlights = 4)` from `background.js`: same algorithm, but the guard is
`!rawText || !rawText.trim()` and only the formatted string is returned. -/
def extractiveSummarize (rawText : String) (maxBullets : Nat := 4)
    (maxHighlights : Nat := 4) : String :=
  if rawText = "" ∨ jsTrimStr rawText = "" then ""
  else
    let sents := segmentSentences rawText
    if sents = [] then ""
    else
      composeWire (freqCore sents maxBullets maxHighlights).1
        (freqCore sents maxBullets maxHighlights).2

/-- Does `sep` occur at the head of `l`?  (`String.prototype.startsWith`
restricted to character lists; helper for `indexOf` / `split`). -/
def seqStarts : List Char → List Char → Bool
  | [], _ => true
  | _ :: _, [] => false
  | a :: as, b :: bs => a = b && seqStarts as bs

/-- First occurrence search, as used by `text.indexOf(sentence)` and by
`String.prototype.split` with a string separator: returns the piece before
the first occurrence of `sep` and the remainder after it. -/
def splitFirst (sep : List Char) : List Char → Option (List Char × List Char)
  | [] => none
  | c :: cs =>
    if seqStarts sep (c :: cs) then some ([], (c :: cs).drop sep.length)
    else
      match splitFirst sep cs with
      | some (pre, post) => some (c :: pre, post)
      | none => none

/-- Embedding of `const [a, b] = str.split(sep)`: the first two pieces of the
JavaScript split (the second is `''` when there is a single piece, matching
`(highlightsPart || '')` applied to `undefined`). -/
def firstTwoPieces (sep : List Char) (l : List Char) : List Char × List Char :=
  match splitFirst sep l with
  | none => (l, [])
  | some (pre, post) =>
    match splitFirst sep post with
    | none => (pre, post)
    | some (pre2, _) => (pre, pre2)

/-- Embedding of `str.split(/\n|\r/)` (and, parameterized by `p`, of any
single-character-class split): cut at every matching character, keeping
empty pieces. -/
def splitAnyChar (p : Char → Bool) : List Char → List (List Char)
  | [] => [[]]
  | c :: cs =>
    if p c then [] :: splitAnyChar p cs
    else
      match splitAnyChar p cs with
      | [] => [[c]]
      | h :: t => (c :: h) :: t

/-- Embedding of `l.replace(/^-\s*/, '')`: drop one leading `-` together
with the whitespace following it. -/
def stripDash (l : List Char) : List Char :=
  match l with
  | '-' :: rest => rest.dropWhile isJsWs
  | _ => l

/-- The delimiter line of the summary wire format. -/
def hlDelim : List Char := "===HIGHLIGHTS===".data

/-- Embedding of the wire-format parse in `content_script.js`
(`extract_and_summarize`, model-tier recovery):
`raw.split('===HIGHLIGHTS===')`, bullets from the first piece with the
`- ` prefix stripped, trimmed, blanks dropped; highlights from the second
piece trimmed, blanks dropped, capped at 5. -/
def parseWire (raw : String) : List String × List String :=
  (((splitAnyChar isNL (firstTwoPieces hlDelim raw.data).1).map
      (fun l => String.mk (jsTrim (stripDash l)))).filter (fun t => t ≠ ""),
   (((splitAnyChar isNL (firstTwoPieces hlDelim raw.data).2).map
      (fun l => String.mk (jsTrim l))).filter (fun t => t ≠ "")).take 5)

/-- Embedding of the question normalization in `answerQuestion` and in the
`ask` fallback of `background.js`:
`question.toLowerCase().replace(/[^a-z0-9\s]/g, '').split(/\s+/).filter(w => w.length > 2)`. -/
def questionWords (question : String) : List String :=
  ((wsFields ((question.data.map Char.toLower).filter
    (fun c => isLowerAlnum c || isJsWs c))).map String.mk).filter
    (fun w => 2 < w.length)

/-- Is `needle` a substring of `hay`?  (`String.prototype.includes` for a
nonempty needle.) -/
def includesSeq (needle hay : List Char) : Bool :=
  (splitFirst needle hay).isSome

/-- A sentence's question-answering score: the number of question tokens
occurring as a substring of the lower-cased sentence
(`for (const w of qWords) if (lw.includes(w)) score += 1`). -/
def qaScore (qWords : List String) (s : String) : Nat :=
  (qWords.filter (fun w => includesSeq w.data (s.data.map Char.toLower))).length

/-- The zero-score fallback `sents.find(s => s.split(' ').length > 6) || sents[0] || dflt`. -/
def qaFallback (sents : List String) (dflt : String) : String :=
  (sents.find? (fun s => 6 < spaceParts s)).getD (sents.headD dflt)

/-- The result object `{answer, fallbackUsed}` of `answerQuestion`. -/
structure QAResult where
  answer : String
  fallbackUsed : Bool
deriving Repr, DecidableEq

/-- Embedding of `answerQuestion(pageText, question)` from
`content_script.js`. -/
def answerQuestion (pageText question : String) : QAResult :=
  let qWords := questionWords question
  let sents := segmentSentences pageText
  if sents = [] then ⟨"No content to answer from.", true⟩
  else
    match (jsSortDesc (sents.map (fun s => (s, qaScore qWords s)))).head? with
    | some best =>
      if 0 < best.2 then ⟨best.1, true⟩ else ⟨qaFallback sents "", true⟩
    | none => ⟨qaFallback sents "", true⟩

/-- Embedding of the inline extractive question-answering fallback of the
`ask` handler in `background.js` (same scoring, but the final default is
the literal `'No answer found'`). -/
def extractiveQA (question text : String) : String :=
  let qWords := questionWords question
  let sents := segmentSentences text
  match (jsSortDesc (sents.map (fun s => (s, qaScore qWords s)))).head? with
  | some best =>
    if 0 < best.2 then best.1 else qaFallback sents "No answer found"
  | none => qaFallback sents "No answer found"

/-! ### The document model

The live DOM is modelled as a forest of nodes: text nodes carrying their
character data, and element nodes carrying the flag "has class
`rifcare-highlight`" plus their children.  `document.body` is the root
forest.  This follows the spec's own design note of treating the document
as an explicit text tree. -/

/-- A DOM node: a text node, or an element (`marker = true` iff it carries
the `rifcare-highlight` class). -/
inductive Dom where
  | text (t : List Char)
  | elem (marker : Bool) (children : List Dom)
deriving Repr

/-- `textContent` of a forest: the concatenated character data of all text
nodes in document order. -/
def textOfList : List Dom → List Char
  | [] => []
  | .text t :: rest => t ++ textOfList rest
  | .elem _ cs :: rest => textOfList cs ++ textOfList rest

/-- Does the forest contain any `rifcare-highlight` marker element
(anywhere, as `document.querySelectorAll` would find it)? -/
def hasMarkerL : List Dom → Bool
  | [] => false
  | .text _ :: rest => hasMarkerL rest
  | .elem true _ :: _ => true
  | .elem false cs :: rest => hasMarkerL cs || hasMarkerL rest

/-- The text contents of all marker spans in the forest, in document
order. -/
def markerTexts : List Dom → List (List Char)
  | [] => []
  | .text _ :: rest => markerTexts rest
  | .elem true cs :: rest => textOfList cs :: (markerTexts cs ++ markerTexts rest)
  | .elem false cs :: rest => markerTexts cs ++ markerTexts rest

/-- The number of text nodes in the forest (the nodes a
`NodeFilter.SHOW_TEXT` tree walker visits). -/
def textNodeCount : List Dom → Nat
  | [] => 0
  | .text _ :: rest => 1 + textNodeCount rest
  | .elem _ cs :: rest => textNodeCount cs + textNodeCount rest

/-- The number of nodes of a forest (termination measure for
`normList`). -/
def domSize : List Dom → Nat
  | [] => 0
  | .text _ :: rest => 1 + domSize rest
  | .elem _ cs :: rest => 1 + domSize cs + domSize rest

/-- Embedding of `Node.normalize()`: remove empty text nodes and merge
adjacent text nodes, recursively through the whole subtree. -/
def normList : List Dom → List Dom
  | [] => []
  | .elem h cs :: rest => .elem h (normList cs) :: normList rest
  | .text t :: .text t2 :: rest => normList (.text (t ++ t2) :: rest)
  | .text t :: rest =>
    if t.isEmpty then normList rest else .text t :: normList rest
termination_by l => domSize l
decreasing_by all_goals first
  | (simp [domSize]; omega)
  | simp [domSize]

/-- Worker for `removeHighlights`: replace every outermost marker span by a
text node holding its `textContent` (markers nested inside a replaced span
are detached with it and never affect the document).  The returned flag
records whether this child list contained a marker span directly, in which
case its parent was `normalize()`d. -/
def remList : List Dom → List Dom × Bool
  | [] => ([], false)
  | .text t :: rest =>
    (.text t :: (remList rest).1, (remList rest).2)
  | .elem true cs :: rest =>
    (.text (textOfList cs) :: (remList rest).1, true)
  | .elem false cs :: rest =>
    (.elem false (if (remList cs).2 then normList (remList cs).1
        else (remList cs).1) :: (remList rest).1,
     (remList rest).2)

/-- Embedding of `removeHighlights()` from `content_script.js`: every
marker span found by `querySelectorAll('.rifcare-highlight')` is replaced
by a text node with its text, and each affected parent is normalized.  A
document without markers is left untouched. -/
def removeHighlights (body : List Dom) : List Dom :=
  if (remList body).2 then normList (remList body).1 else (remList body).1

/-- The mutable state of the `highlightSentences` walker loop: the
remaining sentence set (in insertion order), the number of highlights
applied, and the length of the original input array (the bound used by
`if (highlights >= sentences.length) break`). -/
structure InjSt where
  remaining : List String
  applied : Nat
  total : Nat
deriving Repr

/-- The inner loop `for (const sentence of sentenceSet)` with
`text.indexOf(sentence)`: the first sentence of the set occurring in the
node's text, together with the text before and after its first
occurrence. -/
def findFirstMatch (remaining : List String) (t : List Char) :
    Option (String × List Char × List Char) :=
  match remaining with
  | [] => none
  | s :: rest =>
    match splitFirst s.data t with
    | some (pre, post) => some (s, pre, post)
    | none => findFirstMatch rest t

/-- The walker loop of `highlightSentences`: visit the (original) text
nodes in document order; at each one, unless the applied count has reached
`total`, wrap the first matching remaining sentence, splitting the text
node into before / marker span / after; at most one wrap per text node. -/
def injectList : List Dom → InjSt → List Dom × InjSt
  | [], st => ([], st)
  | .text t :: rest, st =>
    if st.total ≤ st.applied then
      (.text t :: (injectList rest st).1, (injectList rest st).2)
    else
      match findFirstMatch st.remaining t with
      | none =>
        (.text t :: (injectList rest st).1, (injectList rest st).2)
      | some (sen, pre, post) =>
        (.text pre :: .elem true [.text sen.data] :: .text post ::
          (injectList rest ⟨st.remaining.erase sen, st.applied + 1, st.total⟩).1,
         (injectList rest ⟨st.remaining.erase sen, st.applied + 1, st.total⟩).2)
  | .elem h cs :: rest, st =>
    (.elem h (injectList cs st).1 :: (injectList rest (injectList cs st).2).1,
     (injectList rest (injectList cs st).2).2)

/-- JavaScript `Set` construction (insertion order, first occurrence
kept). -/
def dedupAux (seen : List String) : List String → List String
  | [] => []
  | s :: rest =>
    if seen.contains s then dedupAux seen rest
    else s :: dedupAux (s :: seen) rest

/-- `new Set(sentences.map(s => s.trim()).filter(Boolean))` as an ordered
duplicate-free list. -/
def setList (sentences : List String) : List String :=
  dedupAux [] ((sentences.map jsTrimStr).filter (fun s => s ≠ ""))

/-- Embedding of `highlightSentences(sentences)` from `content_script.js`:
remove existing highlights, then walk the text nodes wrapping matches. -/
def highlightSentences (sentences : List String) (body : List Dom) :
    List Dom :=
  (injectList (removeHighlights body) ⟨setList sentences, 0, sentences.length⟩).1

/-! ### The model orchestrator (`background.js` message handlers)

The two model tiers are modelled as `Except String String` parameters: the
outcome of `callChromeAI` (tier 1) and `callWindowAIInPage` (tier 2), each
either a generated text or a thrown error message.  The page text is the
already-extracted, already-sliced string. -/

/-- A background response: `{status:'ok', text/answer, source}` or
`{status:'error', message}`. -/
inductive BgResult where
  | ok (text source : String)
  | err (message : String)
deriving Repr, DecidableEq

/-- Embedding of the `summarize` branch of the `background.js` message
handler, given the outcomes of the two model tiers.  Note that the
`summarize` branch of the source never consults `message.mock`; the
parameter is accepted (faithful to the message shape forwarded by the
popup) and ignored. -/
def summarizeHandler (mock : Bool) (tier1 tier2 : Except String String)
    (text : String) : BgResult :=
  match tier1 with
  | .ok aiText => .ok aiText "chrome.ai"
  | .error _ =>
    match tier2 with
    | .ok aiText => .ok aiText "window.ai"
    | .error e2 =>
      let fallback := extractiveSummarize text 4 4
      if fallback ≠ "" ∧ jsTrimStr fallback ≠ "" then
        .ok fallback "extractive-fallback"
      else
        .err ("Gemini Nano not supported on this device or context: " ++ e2)

/-- A QA history entry `{question, answer, source}` (timestamp omitted). -/
structure HistoryEntry where
  question : String
  answer : String
  source : String
deriving Repr, DecidableEq

/-- Result of the `ask` branch: the response plus the history entry
appended to `qa_history_<url>`. -/
structure AskOutcome where
  response : BgResult
  history : Option HistoryEntry
deriving Repr, DecidableEq

/-- Embedding of the `ask` branch of the `background.js` message handler:
the mock branch bypasses the tiers; otherwise tier 1, tier 2, then the
inline extractive fallback, with the answer appended to history. -/
def askHandler (mock : Bool) (question : String)
    (tier1 tier2 : Except String String) (text : String) : AskOutcome :=
  if mock then
    let mockAnswer := "MOCK ANSWER: simulated response to \"" ++ question ++ "\""
    ⟨.ok mockAnswer "mock", some ⟨question, mockAnswer, "mock"⟩⟩
  else
    match tier1 with
    | .ok aiText => ⟨.ok aiText "chrome.ai", some ⟨question, aiText, "chrome.ai"⟩⟩
    | .error _ =>
      match tier2 with
      | .ok aiText => ⟨.ok aiText "window.ai", some ⟨question, aiText, "window.ai"⟩⟩
      | .error _ =>
        let answer := extractiveQA question text
        ⟨.ok answer "extractive-fallback", some ⟨question, answer, "extractive-fallback"⟩⟩

/-- The stored summary projection `{summary, highlights, raw}` (the
`updated` timestamp is omitted). -/
structure StoredSummary where
  summary : List String
  highlights : List String
  raw : String
deriving Repr, DecidableEq

/-- The content-script response of `extract_and_summarize`. -/
inductive ContentResponse where
  | ok (data : StoredSummary) (fallbackUsed : Bool)
  | err (message : String)
deriving Repr, DecidableEq

/-- Everything `extract_and_summarize` produces: the response, the document
after highlight injection, and the record stored under the page URL. -/
structure SummarizeOutcome where
  response : ContentResponse
  doc : List Dom
  stored : Option StoredSummary
deriving Repr

/-- The fixed deterministic mock payload of `extract_and_summarize`. -/
def fakeSummary : SummaryResult :=
  ⟨["This page explains the main idea in 3-5 short points.",
    "Important architecture or workflow details are discussed.",
    "Major benefits and trade-offs are highlighted.",
    "Next steps and contact information are provided."],
   ["This is a highlight sentence one.",
    "This is a highlight sentence two.",
    "This is a highlight sentence three."],
   "FAKE_SUMMARY"⟩

/-- `str.slice(0, n)`. -/
def sliceChars (n : Nat) (s : String) : String := String.mk (s.data.take n)

/-- Embedding of the `extract_and_summarize` branch of the
`content_script.js` message handler.  `getVisibleText()` is modelled as the
concatenated text content of the body forest.  The mock branch returns the
fixed payload; otherwise `summarizeText` runs on the (sliced) page text
(being pure, it cannot throw, so the background-recovery branch is
unreachable).  Either result is passed to `highlightSentences` (first five
highlights) and stored keyed by the page URL. -/
def extractAndSummarize (mock : Bool) (body : List Dom) : SummarizeOutcome :=
  let text := String.mk (textOfList body)
  let result := if mock then fakeSummary
    else summarizeText (sliceChars 200000 text)
  let newDoc := highlightSentences (result.highlights.take 5) body
  let data : StoredSummary := ⟨result.bullets, result.highlights, result.raw⟩
  ⟨.ok data false, newDoc, some data⟩

/-! ### Basic lemmas -/

theorem hlLoop_length_le (bullets : List String) (maxH : Nat) :
    ∀ (rest : List (String × Nat)) (acc : List String),
    acc.length ≤ maxH → (hlLoop bullets maxH acc rest).length ≤ maxH := by
  intro rest
  induction rest with
  | nil => intro acc h; simpa [hlLoop] using h
  | cons item rest ih =>
    intro acc h
    rw [hlLoop]
    split
    · exact h
    next hm =>
      split
      · exact ih acc h
      · split
        · exact ih acc h
        · refine ih _ ?_
          simp only [List.length_append, List.length_cons, List.length_nil]
          omega

theorem hlPad_length (bullets : List String) (target : Nat)
    (acc : List String) :
    (hlPad bullets target acc).length = max acc.length target := by
  simp only [hlPad, List.length_append, List.length_map, List.length_drop,
    List.length_range]
  omega

theorem freqCore_bullets_length_le (sents : List String)
    (maxB maxH : Nat) : (freqCore sents maxB maxH).1.length ≤ maxB := by
  simp only [freqCore, List.length_map]
  have := List.length_take maxB (sortedScored sents)
  omega

theorem freqCore_highlights_length_le (sents : List String)
    (maxB maxH : Nat) : (freqCore sents maxB maxH).2.length ≤ maxH := by
  simp only [freqCore]
  rw [hlPad_length]
  have h1 : (hlLoop ((List.take maxB (sortedScored sents)).map
      (fun x => String.mk (jsTrim (collapseWS x.1.data)))) maxH []
      (sortedScored sents)).length ≤ maxH :=
    hlLoop_length_le _ _ _ _ (by simp)
  omega

/-- C2, amended bounds part: the extractive summarizer respects both
configured bounds as hard ceilings (hence `bullets ≤ 4`, `highlights ≤ 4 ≤ 5`
at the default call sites), and the wire-format parse caps highlights at 5
(but, per the counterexample, does not bound bullets). -/
theorem summary_bounds :
    (∀ (raw : String) (maxB maxH : Nat),
      (summarizeText raw maxB maxH).bullets.length ≤ maxB ∧
      (summarizeText raw maxB maxH).highlights.length ≤ maxH) ∧
    (∀ raw : String, (summarizeText raw).bullets.length ≤ 4 ∧
      (summarizeText raw).highlights.length ≤ 5) ∧
    (∀ raw : String, (parseWire raw).2.length ≤ 5) := by
  have key : ∀ (raw : String) (maxB maxH : Nat),
      (summarizeText raw maxB maxH).bullets.length ≤ maxB ∧
      (summarizeText raw maxB maxH).highlights.length ≤ maxH := by
    intro raw maxB maxH
    by_cases h0 : raw = ""
    · simp [summarizeText, h0]
    · by_cases h1 : segmentSentences raw = []
      · simp [summarizeText, h0, h1]
      · simp only [summarizeText, h0, h1, if_false]
        exact ⟨freqCore_bullets_length_le _ _ _,
          freqCore_highlights_length_le _ _ _⟩
  refine ⟨key, ?_, ?_⟩
  · intro raw
    exact ⟨(key raw 4 4).1, le_trans (key raw 4 4).2 (by omega)⟩
  · intro raw
    simp only [parseWire]
    have := List.length_take 5 ((((splitAnyChar isNL
      (firstTwoPieces hlDelim raw.data).2).map
      (fun l => String.mk (jsTrim l))).filter (fun t => t ≠ "")))
    omega

/-- C2, counterexample: a model-tier raw text whose parse yields five
bullets, violating the claimed `bullets.length ≤ 4` invariant (the parse in
`content_script.js` never slices the bullet list). -/
theorem parse_bullets_over_four :
    (parseWire "- a\n- b\n- c\n- d\n- e\n\n===HIGHLIGHTS===\nh").1 =
      ["a", "b", "c", "d", "e"] ∧
    ¬ (parseWire "- a\n- b\n- c\n- d\n- e\n\n===HIGHLIGHTS===\nh").1.length ≤ 4 := by
  constructor
  · decide
  · decide

/-- C9: on the four mammal/bird/fish sentences with `maxBullets = 2`, the
frequency scorer selects exactly the two mammal sentences (the shared
non-stopword token `mammals` lifts both above the other two); the
higher-scoring dog sentence sorts first. -/
theorem mammals_bullets :
    (freqCore ["Cats are mammals.", "Dogs are mammals too.",
        "Birds can fly.", "Fish live in water."] 2 4).1 =
      ["Dogs are mammals too.", "Cats are mammals."] ∧
    (summarizeText
      "Cats are mammals. Dogs are mammals too. Birds can fly. Fish live in water."
      2 4).bullets.Perm ["Cats are mammals.", "Dogs are mammals too."] := by
  constructor
  · decide
  · decide

/-! ### The text segmenter (C3) -/

/-- Does the text contain a sentence boundary, i.e. a `.`, `!` or `?`
immediately followed by a whitespace character? -/
def hasBoundaryB : List Char → Bool
  | a :: b :: rest => (isPunct a && isJsWs b) || hasBoundaryB (b :: rest)
  | _ => false

/-- Does the text contain at least one non-whitespace character? -/
def hasNonWsB (l : List Char) : Bool := l.any (fun c => !isJsWs c)

theorem sapAux_of_no_boundary :
    ∀ (l acc : List Char), hasBoundaryB l = false →
    sapAux false acc l = [acc.reverse ++ l] := by
  intro l
  induction l with
  | nil => intro acc _; simp [sapAux]
  | cons c cs ih =>
    intro acc h
    cases cs with
    | nil =>
      simp [sapAux, headIsWs]
    | cons d ds =>
      have h1 : (isPunct c && isJsWs d) = false := by
        rw [hasBoundaryB] at h
        exact (Bool.or_eq_false_iff.mp h).1
      have h2 : hasBoundaryB (d :: ds) = false := by
        rw [hasBoundaryB] at h
        exact (Bool.or_eq_false_iff.mp h).2
      rw [sapAux]
      simp only [headIsWs, Bool.false_and, Bool.false_eq_true, if_false, h1,
        if_false]
      rw [ih (c :: acc) h2]
      simp

theorem mem_dropWhile_of_not {p : Char → Bool} :
    ∀ {l : List Char} {c : Char}, c ∈ l → p c = false →
    c ∈ l.dropWhile p := by
  intro l
  induction l with
  | nil => intro c h; cases h
  | cons a as ih =>
    intro c h hp
    by_cases ha : p a
    · rw [List.dropWhile_cons_of_pos ha]
      rcases List.mem_cons.mp h with rfl | h2
      · rw [hp] at ha; cases ha
      · exact ih h2 hp
    · rw [List.dropWhile_cons_of_neg ha]
      exact h

theorem jsTrim_ne_nil {l : List Char} {c : Char} (hc : c ∈ l)
    (hw : isJsWs c = false) : jsTrim l ≠ [] := by
  have h1 : c ∈ l.dropWhile isJsWs := mem_dropWhile_of_not hc hw
  have h2 : c ∈ (l.dropWhile isJsWs).reverse := List.mem_reverse.mpr h1
  have h3 : c ∈ (l.dropWhile isJsWs).reverse.dropWhile isJsWs :=
    mem_dropWhile_of_not h2 hw
  have h4 : c ∈ jsTrim l := List.mem_reverse.mpr h3
  exact List.ne_nil_of_mem h4

theorem mem_collapseAux :
    ∀ (l : List Char) (prev : Bool) {c : Char}, c ∈ l → isJsWs c = false →
    c ∈ collapseAux prev l := by
  intro l
  induction l with
  | nil => intro prev c h; cases h
  | cons a as ih =>
    intro prev c h hw
    rcases List.mem_cons.mp h with rfl | h2
    · rw [collapseAux, hw]
      simp only [Bool.false_eq_true, if_false]
      exact List.mem_cons_self _ _
    · rw [collapseAux]
      by_cases ha : isJsWs a
      · simp only [ha, if_true]
        by_cases hp : prev
        · simp only [hp, if_true]
          exact ih true h2 hw
        · simp only [hp, if_false]
          exact List.mem_cons_of_mem _ (ih true h2 hw)
      · simp only [ha, Bool.false_eq_true, if_false]
        exact List.mem_cons_of_mem _ (ih false h2 hw)

theorem sapAux_mem :
    ∀ (l : List Char) (skipping : Bool) (acc : List Char) {c : Char},
    (c ∈ acc ∨ c ∈ l) → isJsWs c = false →
    ∃ p ∈ sapAux skipping acc l, c ∈ p := by
  intro l
  induction l with
  | nil =>
    intro skipping acc c h hw
    rcases h with h | h
    · exact ⟨acc.reverse, by simp [sapAux], List.mem_reverse.mpr h⟩
    · cases h
  | cons a as ih =>
    intro skipping acc c h hw
    simp only [sapAux]
    by_cases hskip : (skipping && isJsWs a) = true
    · rw [if_pos hskip]
      have ha : isJsWs a = true := by
        rcases skipping <;> simp_all
      rcases h with h | h
      · exact ih true acc (Or.inl h) hw
      · rcases List.mem_cons.mp h with rfl | h2
        · rw [hw] at ha; cases ha
        · exact ih true acc (Or.inr h2) hw
    · rw [if_neg hskip]
      by_cases hcut : (isPunct a && headIsWs as) = true
      · rw [if_pos hcut]
        rcases h with h | h
        · exact ⟨acc.reverse ++ [a], List.mem_cons_self _ _,
            List.mem_append_left _ (List.mem_reverse.mpr h)⟩
        · rcases List.mem_cons.mp h with rfl | h2
          · exact ⟨acc.reverse ++ [c], List.mem_cons_self _ _,
              List.mem_append_right _ (List.mem_singleton.mpr rfl)⟩
          · obtain ⟨p, hp, hcp⟩ := ih true [] (Or.inr h2) hw
            exact ⟨p, List.mem_cons_of_mem _ hp, hcp⟩
      · rw [if_neg hcut]
        rcases h with h | h
        · exact ih false (a :: acc) (Or.inl (List.mem_cons_of_mem _ h)) hw
        · rcases List.mem_cons.mp h with rfl | h2
          · exact ih false (c :: acc) (Or.inl (List.mem_cons_self _ _)) hw
          · exact ih false (a :: acc) (Or.inr h2) hw

theorem segmentSentences_ne_nil {s : String}
    (h : hasNonWsB s.data = true) : segmentSentences s ≠ [] := by
  obtain ⟨c, hc, hw⟩ := List.any_eq_true.mp h
  have hw2 : isJsWs c = false := by
    cases h2 : isJsWs c
    · rfl
    · rw [h2] at hw; cases hw
  have h1 : c ∈ collapseWS s.data := mem_collapseAux _ false hc hw2
  obtain ⟨p, hp, hcp⟩ := sapAux_mem (collapseWS s.data) false [] (Or.inr h1) hw2
  have h2 : String.mk (jsTrim p) ∈ (splitAfterPunct (collapseWS s.data)).map
      (fun l => String.mk (jsTrim l)) := List.mem_map_of_mem _ hp
  have h3 : String.mk (jsTrim p) ≠ "" := by
    intro hcon
    exact jsTrim_ne_nil hcp hw2 (congrArg String.data hcon)
  have h4 : String.mk (jsTrim p) ∈ segmentSentences s := by
    rw [segmentSentences]
    exact List.mem_filter.mpr ⟨h2, by simpa using h3⟩
  exact List.ne_nil_of_mem h4

theorem collapseAux_all_ws :
    ∀ (l : List Char), (∀ c ∈ l, isJsWs c = true) →
    collapseAux true l = [] ∧
      (l = [] ∨ collapseAux false l = [' ']) := by
  intro l
  induction l with
  | nil => exact fun _ => ⟨rfl, Or.inl rfl⟩
  | cons a as ih =>
    intro h
    have ha : isJsWs a = true := h a (List.mem_cons_self _ _)
    have ihs := ih (fun c hc => h c (List.mem_cons_of_mem _ hc))
    constructor
    · rw [collapseAux, ha]
      simpa using ihs.1
    · refine Or.inr ?_
      rw [collapseAux, ha]
      simpa using ihs.1

/-- C3, amended: the segmenter normalizes whitespace, splits after
`.`/`!`/`?` followed by whitespace (punctuation kept), trims and drops
empty pieces; empty or all-whitespace input yields the empty sequence;
boundary-free input with at least one non-whitespace character yields
exactly one sentence, the whole normalized-and-trimmed text. -/
theorem segmenter_spec :
    (∀ s : String, segmentSentences s =
      ((splitAfterPunct (collapseWS s.data)).map
        (fun l => String.mk (jsTrim l))).filter (fun t => t ≠ "")) ∧
    (segmentSentences "" = []) ∧
    (∀ s : String, hasNonWsB s.data = false → segmentSentences s = []) ∧
    (∀ s : String, hasNonWsB s.data = true →
      hasBoundaryB (collapseWS s.data) = false →
      segmentSentences s = [String.mk (jsTrim (collapseWS s.data))]) ∧
    (segmentSentences "One sentence!  Two?   Three. done" =
      ["One sentence!", "Two?", "Three.", "done"]) := by
  refine ⟨fun s => rfl, by decide, ?_, ?_, by decide⟩
  · intro s h
    have hall : ∀ c ∈ s.data, isJsWs c = true := by
      intro c hc
      by_contra hne
      have : hasNonWsB s.data = true := by
        refine List.any_eq_true.mpr ⟨c, hc, ?_⟩
        simpa using hne
      rw [this] at h; cases h
    rcases (collapseAux_all_ws s.data hall).2 with hnil | hsp
    · rw [segmentSentences]
      rw [show collapseWS s.data = [] from by rw [collapseWS, hnil]; rfl]
      decide
    · rw [segmentSentences, collapseWS, hsp]
      decide
  · intro s hnw hb
    rw [segmentSentences, splitAfterPunct,
      sapAux_of_no_boundary (collapseWS s.data) [] hb]
    obtain ⟨c, hc, hw⟩ := List.any_eq_true.mp hnw
    have hw2 : isJsWs c = false := by
      cases h2 : isJsWs c
      · rfl
      · rw [h2] at hw; cases hw
    have h1 : c ∈ collapseWS s.data := mem_collapseAux _ false hc hw2
    have h2 : String.mk (jsTrim (collapseWS s.data)) ≠ "" := by
      intro hcon
      exact jsTrim_ne_nil h1 hw2 (congrArg String.data hcon)
    simp [h2]

/-- C3, counterexample: `" "` is a nonempty text containing no sentence
boundary, yet segmentation yields the empty sequence rather than one
sentence. -/
theorem segmenter_blank_cex :
    (" " : String) ≠ "" ∧
    hasBoundaryB (collapseWS (" " : String).data) = false ∧
    segmentSentences " " = [] ∧ (segmentSentences " ").length ≠ 1 := by
  refine ⟨by decide, by decide, by decide, by decide⟩

/-- Witness for `segmenter_spec`: conjunct 3 applied to the all-whitespace
text, and conjunct 4 applied to a boundary-free text. -/
theorem segmenter_spec_witness :
    segmentSentences "  " = [] ∧
    segmentSentences "No punctuation here" =
      [String.mk (jsTrim (collapseWS ("No punctuation here" : String).data))] :=
  ⟨segmenter_spec.2.2.1 "  " (by decide),
   segmenter_spec.2.2.2.1 "No punctuation here" (by decide) (by decide)⟩

/-! ### The orchestrator (C1, C5) -/

theorem insertDesc_perm (x : String × Nat) :
    ∀ l : List (String × Nat), (insertDesc x l).Perm (x :: l) := by
  intro l
  induction l with
  | nil => simp [insertDesc]
  | cons y ys ih =>
    rw [insertDesc]
    by_cases hxy : x.2 < y.2
    · rw [if_pos hxy]
      exact (ih.cons y).trans (List.Perm.swap x y ys)
    · rw [if_neg hxy]

theorem jsSortDesc_perm :
    ∀ l : List (String × Nat), (jsSortDesc l).Perm l := by
  intro l
  induction l with
  | nil => simp [jsSortDesc]
  | cons x xs ih =>
    rw [jsSortDesc]
    exact (insertDesc_perm x (jsSortDesc xs)).trans (ih.cons x)

theorem jsSortDesc_head_mem {l : List (String × Nat)} {best : String × Nat}
    (h : (jsSortDesc l).head? = some best) : best ∈ l := by
  have h1 : best ∈ jsSortDesc l := by
    cases hs : jsSortDesc l with
    | nil => rw [hs] at h; cases h
    | cons a as =>
      rw [hs] at h
      simp only [List.head?_cons, Option.some.injEq] at h
      rw [← h]
      exact List.mem_cons_self _ _
  exact (jsSortDesc_perm l).mem_iff.mp h1

theorem segmentSentences_mem_ne {s t : String}
    (h : t ∈ segmentSentences s) : t ≠ "" := by
  rw [segmentSentences] at h
  have := (List.mem_filter.mp h).2
  exact of_decide_eq_true this

theorem qaFallback_cases (sents : List String) (dflt : String) :
    qaFallback sents dflt ∈ sents ∨ qaFallback sents dflt = dflt := by
  rw [qaFallback]
  cases hf : sents.find? (fun s => decide (6 < spaceParts s)) with
  | some t =>
    exact Or.inl (by
      simpa using List.mem_of_find?_eq_some hf)
  | none =>
    cases sents with
    | nil => exact Or.inr rfl
    | cons a as => exact Or.inl (by simp [List.headD])

theorem composeWire_ne (b h : List String) :
    composeWire b h ≠ "" ∧ jsTrimStr (composeWire b h) ≠ "" := by
  have hmem : ('=' : Char) ∈ (composeWire b h).data := by
    show ('=' : Char) ∈ wireData b h
    rw [wireData]
    refine List.mem_append_left _ (List.mem_append_right _ ?_)
    decide
  have hw : isJsWs '=' = false := by decide
  constructor
  · intro hc
    have : ('=' : Char) ∈ ([] : List Char) := by
      rw [← show ("" : String).data = [] from rfl, ← hc]
      exact hmem
    cases this
  · intro hc
    exact jsTrim_ne_nil hmem hw (congrArg String.data hc)

theorem extractiveSummarize_of_nonblank {text : String}
    (h : hasNonWsB text.data = true) :
    extractiveSummarize text 4 4 =
      composeWire (freqCore (segmentSentences text) 4 4).1
        (freqCore (segmentSentences text) 4 4).2 ∧
    extractiveSummarize text 4 4 ≠ "" ∧
    jsTrimStr (extractiveSummarize text 4 4) ≠ "" := by
  obtain ⟨c, hc, hwb⟩ := List.any_eq_true.mp h
  have hw : isJsWs c = false := by
    cases h2 : isJsWs c
    · rfl
    · rw [h2] at hwb; cases hwb
  have hne : text ≠ "" := by
    intro hcon
    rw [hcon] at hc
    cases hc
  have htr : jsTrimStr text ≠ "" := by
    intro hcon
    exact jsTrim_ne_nil hc hw (congrArg String.data hcon)
  have hsent : segmentSentences text ≠ [] := segmentSentences_ne_nil h
  have heq : extractiveSummarize text 4 4 =
      composeWire (freqCore (segmentSentences text) 4 4).1
        (freqCore (segmentSentences text) 4 4).2 := by
    rw [extractiveSummarize]
    rw [if_neg (by simp [hne, htr])]
    simp only [hsent, if_false]
  refine ⟨heq, ?_, ?_⟩
  · rw [heq]; exact (composeWire_ne _ _).1
  · rw [heq]; exact (composeWire_ne _ _).2

theorem extractiveQA_ne (q text : String) : extractiveQA q text ≠ "" := by
  rw [extractiveQA]
  cases hh : (jsSortDesc ((segmentSentences text).map
      (fun s => (s, qaScore (questionWords q) s)))).head? with
  | some best =>
    simp only
    by_cases hb : 0 < best.2
    · rw [if_pos hb]
      have h1 : best ∈ (segmentSentences text).map
          (fun s => (s, qaScore (questionWords q) s)) :=
        jsSortDesc_head_mem hh
      obtain ⟨s, hs, hbs⟩ := List.mem_map.mp h1
      have : best.1 = s := by rw [← hbs]
      rw [this]
      exact segmentSentences_mem_ne hs
    · rw [if_neg hb]
      rcases qaFallback_cases (segmentSentences text) "No answer found" with
        hm | hd
      · exact segmentSentences_mem_ne hm
      · rw [hd]; decide
  | none =>
    simp only
    rcases qaFallback_cases (segmentSentences text) "No answer found" with
      hm | hd
    · exact segmentSentences_mem_ne hm
    · rw [hd]; decide

/-- C1, amended: the orchestrator tries the tiers strictly in order for
both tasks; an error surfaces only when every tier has failed; and when
both model tiers fail on extracted text containing at least one
non-whitespace character, the response is `ok` with source
`extractive-fallback` and a nonempty payload (for the answer task this
holds for every text).  A blank (all-whitespace) nonempty text makes the
summarize fallback produce the empty string, so that case — the subject of
the counterexample — is excluded. -/
theorem orchestrator_tiers :
    (∀ (m : Bool) (t2 : Except String String) (text a : String),
      summarizeHandler m (.ok a) t2 text = .ok a "chrome.ai") ∧
    (∀ (m : Bool) (e1 : String) (text a : String),
      summarizeHandler m (.error e1) (.ok a) text = .ok a "window.ai") ∧
    (∀ (q : String) (t2 : Except String String) (text a : String),
      (askHandler false q (.ok a) t2 text).response = .ok a "chrome.ai") ∧
    (∀ (q e1 text a : String),
      (askHandler false q (.error e1) (.ok a) text).response =
        .ok a "window.ai") ∧
    (∀ (m : Bool) (t1 t2 : Except String String) (text msg : String),
      summarizeHandler m t1 t2 text = .err msg →
      (∃ e1, t1 = .error e1) ∧ (∃ e2, t2 = .error e2)) ∧
    (∀ (q : String) (t1 t2 : Except String String) (text msg : String),
      (askHandler false q t1 t2 text).response ≠ .err msg) ∧
    (∀ (m : Bool) (e1 e2 text : String), hasNonWsB text.data = true →
      summarizeHandler m (.error e1) (.error e2) text =
        .ok (extractiveSummarize text 4 4) "extractive-fallback" ∧
      extractiveSummarize text 4 4 ≠ "") ∧
    (∀ (q e1 e2 text : String),
      (askHandler false q (.error e1) (.error e2) text).response =
        .ok (extractiveQA q text) "extractive-fallback" ∧
      extractiveQA q text ≠ "") := by
  refine ⟨fun m t2 text a => rfl, fun m e1 text a => rfl,
    fun q t2 text a => rfl, fun q e1 text a => rfl, ?_, ?_, ?_, ?_⟩
  · intro m t1 t2 text msg h
    cases t1 with
    | ok a => rw [summarizeHandler] at h; cases h
    | error e1 =>
      cases t2 with
      | ok a => rw [summarizeHandler] at h; cases h
      | error e2 => exact ⟨⟨e1, rfl⟩, ⟨e2, rfl⟩⟩
  · intro q t1 t2 text msg
    cases t1 with
    | ok a => simp [askHandler]
    | error e1 =>
      cases t2 with
      | ok a => simp [askHandler]
      | error e2 => simp [askHandler]
  · intro m e1 e2 text h
    obtain ⟨-, hne, htr⟩ := extractiveSummarize_of_nonblank h
    constructor
    · rw [summarizeHandler]
      rw [if_pos ⟨hne, htr⟩]
    · exact hne
  · intro q e1 e2 text
    exact ⟨rfl, extractiveQA_ne q text⟩

/-- Witness for `orchestrator_tiers`: both model tiers failing on a
non-blank page produce the nonempty extractive fallback for both tasks. -/
theorem orchestrator_tiers_witness :
    (summarizeHandler false (.error "x") (.error "y") "Hello world." =
      .ok (extractiveSummarize "Hello world." 4 4) "extractive-fallback" ∧
     extractiveSummarize "Hello world." 4 4 ≠ "") ∧
    ((askHandler false "why" (.error "x") (.error "y") "Hello world.").response =
      .ok (extractiveQA "why" "Hello world.") "extractive-fallback" ∧
     extractiveQA "why" "Hello world." ≠ "") :=
  ⟨orchestrator_tiers.2.2.2.2.2.2.1 false "x" "y" "Hello world." (by decide),
   orchestrator_tiers.2.2.2.2.2.2.2 "why" "x" "y" "Hello world."⟩

/-- C1, counterexample: `" "` is nonempty extracted text, both model tiers
fail, yet the summarize response has status `error` rather than `ok` with
the extractive-fallback source. -/
theorem orchestrator_blank_cex :
    (" " : String) ≠ "" ∧
    summarizeHandler false (.error "x") (.error "y") " " =
      .err ("Gemini Nano not supported on this device or context: y") := by
  constructor
  · decide
  · decide

/-- C5, amended: the `ask` mock branch of the background orchestrator
bypasses all tiers, answers with the literal template containing the
verbatim question, and appends that answer to history; the content-script
`extract_and_summarize` mock branch returns the fixed payload and still
flows through highlight injection and storage; but the background
`summarize` branch ignores the mock flag entirely (it behaves identically
with and without it). -/
theorem mock_paths :
    (∀ (q : String) (t1 t2 : Except String String) (text : String),
      askHandler true q t1 t2 text =
        ⟨.ok ("MOCK ANSWER: simulated response to \"" ++ q ++ "\"") "mock",
         some ⟨q, "MOCK ANSWER: simulated response to \"" ++ q ++ "\"",
           "mock"⟩⟩) ∧
    (∀ body : List Dom, extractAndSummarize true body =
      ⟨.ok ⟨fakeSummary.bullets, fakeSummary.highlights, "FAKE_SUMMARY"⟩ false,
       highlightSentences (fakeSummary.highlights.take 5) body,
       some ⟨fakeSummary.bullets, fakeSummary.highlights, "FAKE_SUMMARY"⟩⟩) ∧
    (∀ (m : Bool) (t1 t2 : Except String String) (text : String),
      summarizeHandler m t1 t2 text = summarizeHandler false t1 t2 text) := by
  exact ⟨fun q t1 t2 text => rfl, fun body => rfl, fun m t1 t2 text => rfl⟩

/-- C5, counterexample: with the mock flag set, the background `summarize`
response still comes from tier 1 and depends on the page model's output —
it is neither fixed nor marked with a mock source. -/
theorem mock_summarize_cex :
    summarizeHandler true (.ok "AAA") (.error "e") "t" =
      .ok "AAA" "chrome.ai" ∧
    summarizeHandler true (.ok "BBB") (.error "e") "t" =
      .ok "BBB" "chrome.ai" ∧
    BgResult.ok "AAA" "chrome.ai" ≠ BgResult.ok "BBB" "chrome.ai" ∧
    "chrome.ai" ≠ "mock" := by
  refine ⟨rfl, rfl, by decide, by decide⟩

/-! ### The QA matcher (C4) -/

theorem foldr_max_mem : ∀ l : List Nat, l ≠ [] → l.foldr max 0 ∈ l := by
  intro l
  induction l with
  | nil => intro h; cases h rfl
  | cons a as ih =>
    intro _
    rw [List.foldr_cons]
    rcases Nat.le_total (as.foldr max 0) a with hle | hle
    · rw [Nat.max_eq_left hle]
      exact List.mem_cons_self _ _
    · cases as with
      | nil => simp
      | cons b bs =>
        rw [Nat.max_eq_right hle]
        exact List.mem_cons_of_mem _ (ih (by simp))

theorem jsSortDesc_head? :
    ∀ l : List (String × Nat),
    (jsSortDesc l).head? =
      l.find? (fun x => x.2 == (l.map (fun x => x.2)).foldr max 0) := by
  intro l
  induction l with
  | nil => simp [jsSortDesc]
  | cons x xs ih =>
    rw [jsSortDesc]
    cases hs : jsSortDesc xs with
    | nil =>
      have hxs : xs = [] := by
        have := jsSortDesc_perm xs
        rw [hs] at this
        exact this.symm.eq_nil
      subst hxs
      simp [insertDesc, jsSortDesc]
    | cons y ys =>
      rw [hs] at ih
      have hy : xs.find? (fun a =>
          a.2 == (xs.map (fun x => x.2)).foldr max 0) = some y := by
        rw [← ih]; rfl
      have hy2 : y.2 = (xs.map (fun x => x.2)).foldr max 0 := by
        have := List.find?_some hy
        simpa using this
      rw [insertDesc]
      by_cases hxy : x.2 < y.2
      · rw [if_pos hxy]
        have hM : ((x :: xs).map (fun x => x.2)).foldr max 0 =
            (xs.map (fun x => x.2)).foldr max 0 := by
          simp only [List.map_cons, List.foldr_cons]
          rw [hy2] at hxy
          exact Nat.max_eq_right (Nat.le_of_lt hxy)
        have hpx : (x.2 == ((x :: xs).map (fun x => x.2)).foldr max 0) =
            false := by
          rw [hM, ← hy2]
          simp only [beq_eq_false_iff_ne, ne_eq]
          omega
        simp only [List.head?_cons, List.find?_cons, hpx]
        simp only [hM]
        exact hy.symm
      · rw [if_neg hxy]
        have hle : (xs.map (fun x => x.2)).foldr max 0 ≤ x.2 := by
          rw [← hy2]; omega
        have hM : ((x :: xs).map (fun x => x.2)).foldr max 0 = x.2 := by
          simp only [List.map_cons, List.foldr_cons]
          exact Nat.max_eq_left hle
        have hpx : (x.2 == ((x :: xs).map (fun x => x.2)).foldr max 0) =
            true := by
          rw [hM]; simp
        simp only [List.head?_cons, List.find?_cons, hpx]

theorem jsSortDesc_map_head? (g : String → Nat) (sents : List String) :
    (jsSortDesc (sents.map (fun s => (s, g s)))).head? =
      Option.map (fun s => (s, g s))
        (sents.find? (fun s => g s == (sents.map g).foldr max 0)) := by
  rw [jsSortDesc_head?, List.find?_map]
  have h1 : ((sents.map (fun s => (s, g s))).map (fun x => x.2)) =
      sents.map g := by
    rw [List.map_map]; rfl
  rw [h1]
  rfl

/-- C4: the QA matcher returns the sentinel when there are no sentences;
the first (original-order) maximum-scoring sentence when the best
substring-overlap score is positive; and the `> 6`-token / first-sentence
fallback when every score is zero.  Scores count question tokens of length
`> 2` occurring as substrings of the lower-cased sentence. -/
theorem qa_matcher_spec (pageText question : String) :
    (segmentSentences pageText = [] →
      answerQuestion pageText question = ⟨"No content to answer from.", true⟩) ∧
    (segmentSentences pageText ≠ [] →
      0 < ((segmentSentences pageText).map
        (qaScore (questionWords question))).foldr max 0 →
      some (answerQuestion pageText question).answer =
        (segmentSentences pageText).find? (fun s =>
          qaScore (questionWords question) s ==
          ((segmentSentences pageText).map
            (qaScore (questionWords question))).foldr max 0) ∧
      (answerQuestion pageText question).fallbackUsed = true) ∧
    (segmentSentences pageText ≠ [] →
      ((segmentSentences pageText).map
        (qaScore (questionWords question))).foldr max 0 = 0 →
      answerQuestion pageText question =
        ⟨qaFallback (segmentSentences pageText) "", true⟩) := by
  have hhead := jsSortDesc_map_head? (qaScore (questionWords question))
    (segmentSentences pageText)
  refine ⟨?_, ?_, ?_⟩
  · intro h
    simp only [answerQuestion]
    rw [if_pos h]
  · intro hne hpos
    have hfind : (segmentSentences pageText).find? (fun s =>
        qaScore (questionWords question) s ==
        ((segmentSentences pageText).map
          (qaScore (questionWords question))).foldr max 0) ≠ none := by
      intro hnone
      have hmem := foldr_max_mem ((segmentSentences pageText).map
        (qaScore (questionWords question))) (by simpa using hne)
      obtain ⟨s, hs, hval⟩ := List.mem_map.mp hmem
      have := List.find?_eq_none.mp hnone s hs
      rw [hval] at this
      simp at this
    cases hf : (segmentSentences pageText).find? (fun s =>
        qaScore (questionWords question) s ==
        ((segmentSentences pageText).map
          (qaScore (questionWords question))).foldr max 0) with
    | none => exact absurd hf hfind
    | some s0 =>
      rw [hf] at hhead
      simp only [Option.map_some'] at hhead
      have hs0 : qaScore (questionWords question) s0 =
          ((segmentSentences pageText).map
            (qaScore (questionWords question))).foldr max 0 := by
        have := List.find?_some hf
        simpa using this
      have hbpos : 0 < qaScore (questionWords question) s0 := by
        rw [hs0]; exact hpos
      have hAQ : answerQuestion pageText question = ⟨s0, true⟩ := by
        simp only [answerQuestion]
        rw [if_neg hne, hhead]
        exact if_pos hbpos
      rw [hAQ]
      exact ⟨rfl, rfl⟩
  · intro hne hzero
    cases hf : (segmentSentences pageText).find? (fun s =>
        qaScore (questionWords question) s ==
        ((segmentSentences pageText).map
          (qaScore (questionWords question))).foldr max 0) with
    | none =>
      rw [hf] at hhead
      simp only [Option.map_none'] at hhead
      simp only [answerQuestion]
      rw [if_neg hne, hhead]
    | some s0 =>
      rw [hf] at hhead
      simp only [Option.map_some'] at hhead
      have hs0 : qaScore (questionWords question) s0 =
          ((segmentSentences pageText).map
            (qaScore (questionWords question))).foldr max 0 := by
        have := List.find?_some hf
        simpa using this
      have hbneg : ¬ 0 < qaScore (questionWords question) s0 := by
        rw [hs0, hzero]
        omega
      simp only [answerQuestion]
      rw [if_neg hne, hhead]
      exact if_neg hbneg

/-- Witness for `qa_matcher_spec`: the sentinel on empty text, and the
first max-scoring sentence on a concrete page/question pair. -/
theorem qa_matcher_spec_witness :
    answerQuestion "" "q" = ⟨"No content to answer from.", true⟩ ∧
    some (answerQuestion "Cats purr. Dogs bark loudly in the night."
        "when do dogs bark").answer =
      (segmentSentences "Cats purr. Dogs bark loudly in the night.").find?
        (fun s => qaScore (questionWords "when do dogs bark") s ==
          ((segmentSentences "Cats purr. Dogs bark loudly in the night.").map
            (qaScore (questionWords "when do dogs bark"))).foldr max 0) :=
  ⟨(qa_matcher_spec "" "q").1 (by decide),
   ((qa_matcher_spec "Cats purr. Dogs bark loudly in the night."
      "when do dogs bark").2.1 (by decide) (by decide)).1⟩

/-! ### Wire-format round-trip machinery (C6) -/

theorem seqStarts_append_self (sep r : List Char) :
    seqStarts sep (sep ++ r) = true := by
  induction sep with
  | nil => rfl
  | cons c cs ih => simp [seqStarts, ih]

theorem seqStarts_nil_of_ne {sep : List Char} (h : sep ≠ []) :
    seqStarts sep [] = false := by
  cases sep with
  | nil => cases h rfl
  | cons c cs => rfl

theorem seqStarts_exists {sep l : List Char}
    (h : seqStarts sep l = true) : ∃ r, l = sep ++ r := by
  induction sep generalizing l with
  | nil => exact ⟨l, rfl⟩
  | cons c cs ih =>
    cases l with
    | nil => cases h
    | cons b bs =>
      simp only [seqStarts, Bool.and_eq_true, decide_eq_true_eq] at h
      obtain ⟨rfl, h2⟩ := h
      obtain ⟨r, hr⟩ := ih h2
      exact ⟨r, by rw [List.cons_append, ← hr]⟩

theorem splitFirst_eq_none_iff {sep : List Char} (hne : sep ≠ []) :
    ∀ l : List Char, splitFirst sep l = none ↔
      ∀ i, seqStarts sep (l.drop i) = false := by
  intro l
  induction l with
  | nil =>
    simp only [splitFirst, List.drop_nil, true_iff]
    intro i
    exact seqStarts_nil_of_ne hne
  | cons c cs ih =>
    rw [splitFirst]
    by_cases h0 : seqStarts sep (c :: cs) = true
    · rw [if_pos h0]
      constructor
      · intro h; cases h
      · intro h
        have := h 0
        rw [List.drop_zero, h0] at this
        cases this
    · rw [if_neg h0]
      constructor
      · intro h i
        cases i with
        | zero =>
          rw [List.drop_zero]
          simpa using h0
        | succ j =>
          rw [List.drop_succ_cons]
          refine (ih.mp ?_) j
          cases hcs : splitFirst sep cs with
          | none => rfl
          | some p =>
            rw [hcs] at h
            cases p with
            | mk pre post => cases h
      · intro h
        have hcs : splitFirst sep cs = none := by
          rw [ih]
          intro j
          have := h (j + 1)
          rwa [List.drop_succ_cons] at this
        rw [hcs]

theorem seqStarts_cross :
    ∀ (p a y : List Char), (∀ c ∈ p, isNL c = false) →
    seqStarts p (a ++ '\n' :: y) = true →
    p.length ≤ a.length ∧ seqStarts p a = true := by
  intro p
  induction p with
  | nil => intro a y _ _; exact ⟨Nat.zero_le _, rfl⟩
  | cons q p' ih =>
    intro a y hnl h
    cases a with
    | nil =>
      simp only [List.nil_append, seqStarts, Bool.and_eq_true,
        decide_eq_true_eq] at h
      have := hnl q (List.mem_cons_self _ _)
      rw [h.1] at this
      cases this
    | cons b a' =>
      simp only [List.cons_append, seqStarts, Bool.and_eq_true,
        decide_eq_true_eq] at h
      obtain ⟨rfl, h2⟩ := h
      obtain ⟨hlen, hst⟩ := ih a' y
        (fun c hc => hnl c (List.mem_cons_of_mem _ hc)) h2
      refine ⟨by simpa using Nat.succ_le_succ hlen, ?_⟩
      simp [seqStarts, hst]

theorem occ_append_nl {sep : List Char} (hnl : ∀ c ∈ sep, isNL c = false)
    (hne : sep ≠ []) :
    ∀ (a y : List Char) (i : Nat),
    seqStarts sep ((a ++ '\n' :: y).drop i) = true →
    seqStarts sep (a.drop i) = true ∨
      (a.length + 1 ≤ i ∧
        seqStarts sep (y.drop (i - (a.length + 1))) = true) := by
  intro a
  induction a with
  | nil =>
    intro y i h
    cases i with
    | zero =>
      rw [List.nil_append, List.drop_zero] at h
      obtain ⟨hlen, -⟩ := seqStarts_cross sep [] y hnl h
      have : sep = [] := List.length_eq_zero.mp (by simpa using hlen)
      exact absurd this hne
    | succ j =>
      rw [List.nil_append, List.drop_succ_cons] at h
      exact Or.inr ⟨by simp only [List.length_nil]; omega, by simpa using h⟩
  | cons b a' ih =>
    intro y i h
    cases i with
    | zero =>
      rw [List.drop_zero]
      rw [List.cons_append, List.drop_zero] at h
      obtain ⟨-, hst⟩ := seqStarts_cross sep (b :: a') y hnl h
      exact Or.inl hst
    | succ j =>
      rw [List.cons_append, List.drop_succ_cons] at h
      rcases ih y j h with hl | ⟨hge, hy⟩
      · rw [List.drop_succ_cons]
        exact Or.inl hl
      · refine Or.inr ⟨by simp only [List.length_cons]; omega, ?_⟩
        rw [show j + 1 - ((b :: a').length + 1) = j - (a'.length + 1) from by
          simp only [List.length_cons]; omega]
        exact hy

theorem joinNL_no_occ {sep : List Char} (hne : sep ≠ [])
    (hnl : ∀ c ∈ sep, isNL c = false) :
    ∀ lines : List (List Char),
    (∀ l ∈ lines, ∀ i, seqStarts sep (l.drop i) = false) →
    ∀ i, seqStarts sep ((joinNL lines).drop i) = false := by
  intro lines
  induction lines with
  | nil =>
    intro _ i
    rw [joinNL, List.drop_nil]
    exact seqStarts_nil_of_ne hne
  | cons l ls ih =>
    intro h i
    cases hls : ls with
    | nil =>
      rw [joinNL]
      exact h l (List.mem_cons_self _ _) i
    | cons l2 ls2 =>
      subst hls
      show seqStarts sep ((joinNL (l :: l2 :: ls2)).drop i) = false
      rw [show joinNL (l :: l2 :: ls2) = l ++ '\n' :: joinNL (l2 :: ls2)
        from rfl]
      cases hocc : seqStarts sep ((l ++ '\n' :: joinNL (l2 :: ls2)).drop i)
      · rfl
      · exfalso
        rcases occ_append_nl hnl hne l (joinNL (l2 :: ls2)) i hocc with
          hl | ⟨-, hy⟩
        · rw [h l (List.mem_cons_self _ _) i] at hl
          cases hl
        · rw [ih (fun l' hl' i' => h l' (List.mem_cons_of_mem _ hl') i') _]
            at hy
          cases hy

theorem splitFirst_at {sep y : List Char} (hne : sep ≠ []) :
    ∀ x : List Char,
    (∀ i, seqStarts sep ((x ++ sep ++ y).drop i) = true → x.length ≤ i) →
    splitFirst sep (x ++ sep ++ y) = some (x, y) := by
  intro x
  induction x with
  | nil =>
    intro _
    cases hsep : sep with
    | nil => exact absurd hsep hne
    | cons s ss =>
      rw [← hsep]
      rw [List.nil_append]
      rw [show sep ++ y = s :: (ss ++ y) from by rw [hsep]; rfl]
      rw [splitFirst]
      rw [if_pos (by rw [show s :: (ss ++ y) = sep ++ y from by
        rw [hsep]; rfl]; exact seqStarts_append_self sep y)]
      rw [show s :: (ss ++ y) = sep ++ y from by rw [hsep]; rfl]
      rw [List.drop_left]
  | cons c x' ih =>
    intro h
    rw [show (c :: x') ++ sep ++ y = c :: (x' ++ sep ++ y) from by simp]
    rw [splitFirst]
    have hc : ¬ seqStarts sep (c :: (x' ++ sep ++ y)) = true := by
      intro hocc
      have := h 0 (by
        rw [List.drop_zero]
        rw [show (c :: x') ++ sep ++ y = c :: (x' ++ sep ++ y) from by simp]
        exact hocc)
      simp at this
    rw [if_neg hc]
    rw [ih (fun i hocc => by
      have := h (i + 1) (by
        rw [show (c :: x') ++ sep ++ y = c :: (x' ++ sep ++ y) from by simp,
          List.drop_succ_cons]
        exact hocc)
      simpa using this)]

theorem includesSeq_false_none {sep l : List Char}
    (h : includesSeq sep l = false) : splitFirst sep l = none := by
  rw [includesSeq] at h
  cases hs : splitFirst sep l with
  | none => rfl
  | some p => rw [hs] at h; cases h

theorem splitAnyChar_no_match (p : Char → Bool) :
    ∀ l : List Char, (∀ c ∈ l, p c = false) → splitAnyChar p l = [l] := by
  intro l
  induction l with
  | nil => intro _; rfl
  | cons c cs ih =>
    intro h
    rw [splitAnyChar]
    rw [if_neg (by rw [h c (List.mem_cons_self _ _)]; simp)]
    rw [ih (fun d hd => h d (List.mem_cons_of_mem _ hd))]

theorem splitAnyChar_append (p : Char → Bool) {c0 : Char} (hc : p c0 = true) :
    ∀ (a y : List Char), (∀ c ∈ a, p c = false) →
    splitAnyChar p (a ++ c0 :: y) = a :: splitAnyChar p y := by
  intro a
  induction a with
  | nil =>
    intro y _
    rw [List.nil_append, splitAnyChar, if_pos hc]
  | cons d a' ih =>
    intro y h
    rw [List.cons_append, splitAnyChar]
    rw [if_neg (by rw [h d (List.mem_cons_self _ _)]; simp)]
    rw [ih y (fun c hcm => h c (List.mem_cons_of_mem _ hcm))]

theorem splitNL_joinNL_append :
    ∀ lines : List (List Char), lines ≠ [] →
    (∀ l ∈ lines, ∀ c ∈ l, isNL c = false) → ∀ z : List Char,
    splitAnyChar isNL (joinNL lines ++ '\n' :: z) =
      lines ++ splitAnyChar isNL z := by
  intro lines
  induction lines with
  | nil => intro h; cases h rfl
  | cons l ls ih =>
    intro _ h z
    cases hls : ls with
    | nil =>
      rw [joinNL]
      rw [splitAnyChar_append isNL (by decide) l z
        (h l (List.mem_cons_self _ _))]
      rfl
    | cons l2 ls2 =>
      subst hls
      rw [show joinNL (l :: l2 :: ls2) = l ++ '\n' :: joinNL (l2 :: ls2)
        from rfl]
      rw [List.append_assoc, List.cons_append]
      rw [splitAnyChar_append isNL (by decide) l _
        (h l (List.mem_cons_self _ _))]
      rw [ih (by simp) (fun l' hl' => h l' (List.mem_cons_of_mem _ hl')) z]
      rfl

theorem splitNL_joinNL :
    ∀ lines : List (List Char), lines ≠ [] →
    (∀ l ∈ lines, ∀ c ∈ l, isNL c = false) →
    splitAnyChar isNL (joinNL lines) = lines := by
  intro lines
  induction lines with
  | nil => intro h; cases h rfl
  | cons l ls ih =>
    intro _ h
    cases hls : ls with
    | nil =>
      rw [joinNL]
      exact splitAnyChar_no_match isNL l (h l (List.mem_cons_self _ _))
    | cons l2 ls2 =>
      subst hls
      rw [show joinNL (l :: l2 :: ls2) = l ++ '\n' :: joinNL (l2 :: ls2)
        from rfl]
      rw [splitAnyChar_append isNL (by decide) l _
        (h l (List.mem_cons_self _ _))]
      rw [ih (by simp) (fun l' hl' => h l' (List.mem_cons_of_mem _ hl'))]

theorem dropWhile_of_trim_fix {l : List Char} (h : jsTrim l = l) :
    l.dropWhile isJsWs = l := by
  have h1 : (jsTrim l).length ≤ (l.dropWhile isJsWs).length := by
    rw [jsTrim, List.length_reverse]
    calc ((l.dropWhile isJsWs).reverse.dropWhile isJsWs).length
        ≤ (l.dropWhile isJsWs).reverse.length :=
          (List.dropWhile_sublist _).length_le
      _ = (l.dropWhile isJsWs).length := List.length_reverse _
  rw [h] at h1
  exact (List.dropWhile_sublist _).eq_of_length
    (Nat.le_antisymm (List.dropWhile_sublist _).length_le h1)

theorem parse_bullet_lines :
    ∀ bullets : List String, (∀ b ∈ bullets, jsTrimStr b = b ∧ b ≠ "") →
    (((bullets.map (fun b => '-' :: ' ' :: b.data)).map
      (fun l => String.mk (jsTrim (stripDash l)))).filter
      (fun t => t ≠ "")) = bullets := by
  intro bullets
  induction bullets with
  | nil => intro _; rfl
  | cons b bs ih =>
    intro h
    obtain ⟨htrim, hne⟩ := h b (List.mem_cons_self _ _)
    have hdata : jsTrim b.data = b.data := congrArg String.data htrim
    have hline : String.mk (jsTrim (stripDash ('-' :: ' ' :: b.data))) = b := by
      rw [show stripDash ('-' :: ' ' :: b.data) =
          (' ' :: b.data).dropWhile isJsWs from rfl]
      rw [List.dropWhile_cons_of_pos (by decide)]
      rw [dropWhile_of_trim_fix hdata, hdata]
    simp only [List.map_cons, List.filter_cons, hline]
    rw [if_pos (by simpa using hne)]
    rw [ih (fun x hx => h x (List.mem_cons_of_mem _ hx))]

theorem parse_hl_lines :
    ∀ hs : List String, (∀ s ∈ hs, jsTrimStr s = s ∧ s ≠ "") →
    (((hs.map String.data).map (fun l => String.mk (jsTrim l))).filter
      (fun t => t ≠ "")) = hs := by
  intro hs
  induction hs with
  | nil => intro _; rfl
  | cons s ss ih =>
    intro h
    obtain ⟨htrim, hne⟩ := h s (List.mem_cons_self _ _)
    have hdata : jsTrim s.data = s.data := congrArg String.data htrim
    simp only [List.map_cons, List.filter_cons, hdata]
    rw [if_pos (by simpa using hne)]
    rw [ih (fun x hx => h x (List.mem_cons_of_mem _ hx))]

/-- C6, amended: the wire format round-trips through the
`content_script.js` parser for bullet and highlight lists whose entries are
trimmed, nonempty, free of `\n`/`\r`, and do not contain the delimiter,
provided there are at most 5 highlights (the parser's hard cap).  The
counterexample shows the bare nonempty/newline-free/delimiter-free
conditions claimed are not sufficient. -/
theorem wire_roundtrip (bullets highlights : List String)
    (hb : ∀ b ∈ bullets, jsTrimStr b = b ∧ b ≠ "" ∧
      (∀ c ∈ b.data, isNL c = false) ∧ includesSeq hlDelim b.data = false)
    (hh : ∀ s ∈ highlights, jsTrimStr s = s ∧ s ≠ "" ∧
      (∀ c ∈ s.data, isNL c = false) ∧ includesSeq hlDelim s.data = false)
    (hlen : highlights.length ≤ 5) :
    parseWire (composeWire bullets highlights) = (bullets, highlights) := by
  have hdelim_ne : hlDelim ≠ [] := by decide
  have hdelim_nl : ∀ c ∈ hlDelim, isNL c = false := by decide
  have hbl_occ : ∀ l ∈ bullets.map (fun b => '-' :: ' ' :: b.data),
      ∀ i, seqStarts hlDelim (l.drop i) = false := by
    intro l hl i
    obtain ⟨b, hbmem, rfl⟩ := List.mem_map.mp hl
    obtain ⟨-, -, -, hocc⟩ := hb b hbmem
    have hpos := (splitFirst_eq_none_iff hdelim_ne b.data).mp
      (includesSeq_false_none hocc)
    match i with
    | 0 => rfl
    | 1 => rfl
    | (j + 2) =>
      rw [List.drop_succ_cons, List.drop_succ_cons]
      exact hpos j
  have hhl_occ : ∀ l ∈ highlights.map String.data,
      ∀ i, seqStarts hlDelim (l.drop i) = false := by
    intro l hl i
    obtain ⟨s, hsmem, rfl⟩ := List.mem_map.mp hl
    obtain ⟨-, -, -, hocc⟩ := hh s hsmem
    exact (splitFirst_eq_none_iff hdelim_ne s.data).mp
      (includesSeq_false_none hocc) i
  have hjoinB := joinNL_no_occ hdelim_ne hdelim_nl _ hbl_occ
  have hjoinH := joinNL_no_occ hdelim_ne hdelim_nl _ hhl_occ
  have hW : (composeWire bullets highlights).data =
      (joinNL (bullets.map (fun b => '-' :: ' ' :: b.data)) ++ ['\n', '\n'])
        ++ hlDelim ++ ('\n' :: joinNL (highlights.map String.data)) := by
    show wireData bullets highlights = _
    rw [wireData]
    rw [show ("\n\n===HIGHLIGHTS===\n" : String).data =
      ['\n', '\n'] ++ hlDelim ++ ['\n'] from rfl]
    simp [List.append_assoc]
  have hcross : ∀ i, seqStarts hlDelim
      ((((joinNL (bullets.map (fun b => '-' :: ' ' :: b.data)) ++
        ['\n', '\n']) ++ hlDelim ++
        ('\n' :: joinNL (highlights.map String.data)))).drop i) = true →
      (joinNL (bullets.map (fun b => '-' :: ' ' :: b.data)) ++
        ['\n', '\n']).length ≤ i := by
    intro i hocc
    set A := joinNL (bullets.map (fun b => '-' :: ' ' :: b.data)) with hA
    set H := joinNL (highlights.map String.data) with hH
    rw [show (A ++ ['\n', '\n']) ++ hlDelim ++ ('\n' :: H) =
      A ++ '\n' :: ('\n' :: (hlDelim ++ ('\n' :: H))) from by simp] at hocc
    rcases occ_append_nl hdelim_nl hdelim_ne A _ i hocc with h1 | ⟨hge1, h2⟩
    · rw [hjoinB i] at h1; cases h1
    · have h2' : seqStarts hlDelim (([] ++ '\n' :: (hlDelim ++
          ('\n' :: H))).drop (i - (A.length + 1))) = true := by
        simpa using h2
      rcases occ_append_nl hdelim_nl hdelim_ne [] _ _ h2' with h3 | ⟨hge2, -⟩
      · rw [List.drop_nil, seqStarts_nil_of_ne hdelim_ne] at h3
        cases h3
      · simp only [List.length_append, List.length_cons, List.length_nil,
          List.length_nil] at *
        omega
  have h1 : splitFirst hlDelim ((joinNL (bullets.map
      (fun b => '-' :: ' ' :: b.data)) ++ ['\n', '\n']) ++ hlDelim ++
      ('\n' :: joinNL (highlights.map String.data))) =
      some (joinNL (bullets.map (fun b => '-' :: ' ' :: b.data)) ++
        ['\n', '\n'], '\n' :: joinNL (highlights.map String.data)) :=
    splitFirst_at hdelim_ne _ hcross
  have h2 : splitFirst hlDelim
      ('\n' :: joinNL (highlights.map String.data)) = none := by
    rw [splitFirst_eq_none_iff hdelim_ne]
    intro i
    cases hocc : seqStarts hlDelim
        (('\n' :: joinNL (highlights.map String.data)).drop i) with
    | false => rfl
    | true =>
      exfalso
      have hocc2 : seqStarts hlDelim
          (([] ++ '\n' :: joinNL (highlights.map String.data)).drop i) =
          true := by simpa using hocc
      rcases occ_append_nl hdelim_nl hdelim_ne [] _ i hocc2 with h3 | ⟨-, h4⟩
      · rw [List.drop_nil, seqStarts_nil_of_ne hdelim_ne] at h3
        cases h3
      · rw [hjoinH _] at h4
        cases h4
  have hft : firstTwoPieces hlDelim (composeWire bullets highlights).data =
      (joinNL (bullets.map (fun b => '-' :: ' ' :: b.data)) ++ ['\n', '\n'],
       '\n' :: joinNL (highlights.map String.data)) := by
    rw [hW, firstTwoPieces, h1]
    simp only [h2]
  have hbul : ((splitAnyChar isNL (firstTwoPieces hlDelim
      (composeWire bullets highlights).data).1).map
      (fun l => String.mk (jsTrim (stripDash l)))).filter
      (fun t => t ≠ "") = bullets := by
    rw [hft]
    cases hbe : bullets with
    | nil => rfl
    | cons b0 bs0 =>
      rw [← hbe]
      have hlines_ne : bullets.map (fun b => '-' :: ' ' :: b.data) ≠ [] := by
        rw [hbe]; simp
      have hlines_nl : ∀ l ∈ bullets.map (fun b => '-' :: ' ' :: b.data),
          ∀ c ∈ l, isNL c = false := by
        intro l hl c hc
        obtain ⟨b, hbmem, rfl⟩ := List.mem_map.mp hl
        rcases List.mem_cons.mp hc with rfl | hc2
        · rfl
        · rcases List.mem_cons.mp hc2 with rfl | hc3
          · rfl
          · exact (hb b hbmem).2.2.1 c hc3
      rw [show (joinNL (bullets.map (fun b => '-' :: ' ' :: b.data)) ++
          ['\n', '\n']) = joinNL (bullets.map
          (fun b => '-' :: ' ' :: b.data)) ++ '\n' :: ['\n'] from rfl]
      rw [splitNL_joinNL_append _ hlines_ne hlines_nl ['\n']]
      rw [List.map_append, List.filter_append]
      rw [parse_bullet_lines bullets (fun b hbm =>
        ⟨(hb b hbm).1, (hb b hbm).2.1⟩)]
      rw [show ((splitAnyChar isNL ['\n']).map
        (fun l => String.mk (jsTrim (stripDash l)))).filter
        (fun t => t ≠ "") = [] from rfl]
      rw [List.append_nil]
  have hhl : (((splitAnyChar isNL (firstTwoPieces hlDelim
      (composeWire bullets highlights).data).2).map
      (fun l => String.mk (jsTrim l))).filter
      (fun t => t ≠ "")).take 5 = highlights := by
    rw [hft]
    cases hhe : highlights with
    | nil => rfl
    | cons s0 ss0 =>
      rw [← hhe]
      have hlines_ne : highlights.map String.data ≠ [] := by
        rw [hhe]; simp
      have hlines_nl : ∀ l ∈ highlights.map String.data,
          ∀ c ∈ l, isNL c = false := by
        intro l hl c hc
        obtain ⟨s, hsmem, rfl⟩ := List.mem_map.mp hl
        exact (hh s hsmem).2.2.1 c hc
      rw [show splitAnyChar isNL
          ('\n' :: joinNL (highlights.map String.data)) =
          [] :: splitAnyChar isNL (joinNL (highlights.map String.data))
        from rfl]
      rw [splitNL_joinNL _ hlines_ne hlines_nl]
      rw [List.map_cons, List.filter_cons]
      rw [if_neg (by decide)]
      rw [parse_hl_lines highlights (fun s hsm =>
        ⟨(hh s hsm).1, (hh s hsm).2.1⟩)]
      exact List.take_of_length_le hlen
  show (_, _) = (bullets, highlights)
  rw [hbul, hhl]

/-- C6, counterexample: the bullet `" a"` is nonempty, newline-free and
delimiter-free, yet composing and parsing returns `"a"`: the parser's
trimming does not restore the original bullet. -/
theorem wire_roundtrip_cex :
    (" a" : String) ≠ "" ∧
    (∀ c ∈ (" a" : String).data, isNL c = false) ∧
    includesSeq hlDelim (" a" : String).data = false ∧
    parseWire (composeWire [" a"] ["h"]) = (["a"], ["h"]) ∧
    (["a"], ["h"]) ≠ (([" a"], ["h"]) : List String × List String) := by
  refine ⟨by decide, by decide, by decide, by decide, by decide⟩

/-- Witness for `wire_roundtrip`: a concrete two-bullet, two-highlight
summary round-trips exactly. -/
theorem wire_roundtrip_witness :
    parseWire (composeWire ["First point.", "Second point."]
      ["A highlight sentence.", "Another highlight."]) =
      (["First point.", "Second point."],
       ["A highlight sentence.", "Another highlight."]) :=
  wire_roundtrip ["First point.", "Second point."]
    ["A highlight sentence.", "Another highlight."]
    (by decide) (by decide) (by decide)

/-! ### Document model lemmas (C7, C8, C10) -/

theorem textOf_normList : ∀ l : List Dom,
    textOfList (normList l) = textOfList l := by
  intro l
  induction l using normList.induct with
  | case1 => rw [normList]
  | case2 h cs rest ih1 ih2 =>
    rw [normList]
    simp only [textOfList]
    rw [ih1, ih2]
  | case3 t t2 rest ih =>
    rw [normList, ih]
    simp only [textOfList, List.append_assoc]
  | case4 t rest hshape hemp ih =>
    rw [normList.eq_4 t rest hshape, if_pos hemp, ih,
      List.isEmpty_iff.mp hemp]
    simp only [textOfList, List.nil_append]
  | case5 t rest hshape hemp ih =>
    rw [normList.eq_4 t rest hshape, if_neg hemp]
    simp only [textOfList, ih]

theorem hasMarker_normList : ∀ l : List Dom,
    hasMarkerL (normList l) = hasMarkerL l := by
  intro l
  induction l using normList.induct with
  | case1 => rw [normList]
  | case2 h cs rest ih1 ih2 =>
    rw [normList]
    cases h with
    | true => simp only [hasMarkerL]
    | false =>
      simp only [hasMarkerL]
      rw [ih1, ih2]
  | case3 t t2 rest ih =>
    rw [normList, ih]
    simp only [hasMarkerL]
  | case4 t rest hshape hemp ih =>
    rw [normList.eq_4 t rest hshape, if_pos hemp, ih]
    simp only [hasMarkerL]
  | case5 t rest hshape hemp ih =>
    rw [normList.eq_4 t rest hshape, if_neg hemp]
    simp only [hasMarkerL, ih]

theorem textOf_remList : ∀ l : List Dom,
    textOfList (remList l).1 = textOfList l := by
  intro l
  induction l using remList.induct with
  | case1 => rw [remList]
  | case2 t rest ih =>
    simp only [remList, textOfList]
    rw [ih]
  | case3 cs rest ih =>
    simp only [remList, textOfList]
    rw [ih]
  | case4 cs rest ih1 ih2 =>
    simp only [remList, textOfList]
    rw [ih2]
    by_cases hf : (remList cs).2
    · rw [if_pos hf, textOf_normList, ih1]
    · rw [if_neg hf, ih1]

theorem hasMarker_remList : ∀ l : List Dom,
    hasMarkerL (remList l).1 = false := by
  intro l
  induction l using remList.induct with
  | case1 => rw [remList]; rw [hasMarkerL]
  | case2 t rest ih =>
    simp only [remList, hasMarkerL]
    exact ih
  | case3 cs rest ih =>
    simp only [remList, hasMarkerL]
    exact ih
  | case4 cs rest ih1 ih2 =>
    simp only [remList, hasMarkerL]
    rw [ih2, Bool.or_false]
    by_cases hf : (remList cs).2
    · rw [if_pos hf, hasMarker_normList, ih1]
    · rw [if_neg hf, ih1]

theorem remList_noop : ∀ l : List Dom, hasMarkerL l = false →
    remList l = (l, false) := by
  intro l
  induction l using remList.induct with
  | case1 => intro _; rw [remList]
  | case2 t rest ih =>
    intro h
    rw [hasMarkerL] at h
    rw [remList, ih h]
  | case3 cs rest ih =>
    intro h
    rw [hasMarkerL] at h
    cases h
  | case4 cs rest ih1 ih2 =>
    intro h
    rw [hasMarkerL] at h
    obtain ⟨h1, h2⟩ := Bool.or_eq_false_iff.mp h
    rw [remList, ih1 h1, ih2 h2]
    simp

theorem hasMarker_removeHighlights (body : List Dom) :
    hasMarkerL (removeHighlights body) = false := by
  rw [removeHighlights]
  by_cases hf : (remList body).2
  · rw [if_pos hf, hasMarker_normList]
    exact hasMarker_remList body
  · rw [if_neg hf]
    exact hasMarker_remList body

theorem textOf_removeHighlights (body : List Dom) :
    textOfList (removeHighlights body) = textOfList body := by
  rw [removeHighlights]
  by_cases hf : (remList body).2
  · rw [if_pos hf, textOf_normList]
    exact textOf_remList body
  · rw [if_neg hf]
    exact textOf_remList body

theorem removeHighlights_noop {body : List Dom}
    (h : hasMarkerL body = false) : removeHighlights body = body := by
  rw [removeHighlights, remList_noop body h]
  simp

/-- C8: the remover is a no-op on a document without markers, always
preserves the document's text content (it is a total function: a marker
whose parent was detached by the removal of an enclosing marker simply no
longer affects the document), and is idempotent. -/
theorem remover_spec :
    (∀ body : List Dom, hasMarkerL body = false →
      removeHighlights body = body) ∧
    (∀ body : List Dom,
      textOfList (removeHighlights body) = textOfList body) ∧
    (∀ body : List Dom,
      removeHighlights (removeHighlights body) = removeHighlights body) := by
  refine ⟨fun body h => removeHighlights_noop h, textOf_removeHighlights, ?_⟩
  intro body
  exact removeHighlights_noop (hasMarker_removeHighlights body)

/-- Witness for `remover_spec`: the no-op conjunct applied to a concrete
marker-free document. -/
theorem remover_spec_witness :
    removeHighlights [Dom.elem false [Dom.text ['h', 'i']], Dom.text ['!']] =
      [Dom.elem false [Dom.text ['h', 'i']], Dom.text ['!']] :=
  remover_spec.1 _ (by simp [hasMarkerL])

theorem splitFirst_append_eq {sep : List Char} :
    ∀ {l pre post : List Char}, splitFirst sep l = some (pre, post) →
    pre ++ (sep ++ post) = l := by
  intro l
  induction l with
  | nil => intro pre post h; cases h
  | cons c cs ih =>
    intro pre post h
    rw [splitFirst] at h
    by_cases hs : seqStarts sep (c :: cs) = true
    · rw [if_pos hs] at h
      obtain ⟨r, hr⟩ := seqStarts_exists hs
      injection h with h2
      injection h2 with hpre hpost
      subst hpre
      rw [List.nil_append, ← hpost, hr, List.drop_left]
    · rw [if_neg hs] at h
      cases hcs : splitFirst sep cs with
      | none => rw [hcs] at h; cases h
      | some p =>
        rw [hcs] at h
        cases p with
        | mk p1 p2 =>
          injection h with h2
          injection h2 with hpre hpost
          subst hpre
          subst hpost
          rw [← ih hcs]
          rfl

theorem findFirstMatch_spec :
    ∀ {rem : List String} {t : List Char} {sen : String}
      {pre post : List Char},
    findFirstMatch rem t = some (sen, pre, post) →
    sen ∈ rem ∧ pre ++ (sen.data ++ post) = t := by
  intro rem
  induction rem with
  | nil => intro t sen pre post h; cases h
  | cons s rest ih =>
    intro t sen pre post h
    rw [findFirstMatch] at h
    cases hsf : splitFirst s.data t with
    | some p =>
      rw [hsf] at h
      cases p with
      | mk p1 p2 =>
        injection h with h2
        injection h2 with hsen hrest
        injection hrest with hpre hpost
        subst hsen
        subst hpre
        subst hpost
        exact ⟨List.mem_cons_self _ _, splitFirst_append_eq hsf⟩
    | none =>
      rw [hsf] at h
      obtain ⟨hmem, heq⟩ := ih h
      exact ⟨List.mem_cons_of_mem _ hmem, heq⟩

theorem textOf_injectList : ∀ (l : List Dom) (st : InjSt),
    textOfList (injectList l st).1 = textOfList l := by
  intro l st
  induction l, st using injectList.induct with
  | case1 st => rw [injectList]
  | case2 t rest st hle ih =>
    rw [injectList, if_pos hle]
    simp only [textOfList]
    rw [ih]
  | case3 t rest st hle heq ih =>
    rw [injectList, if_neg hle, heq]
    simp only [textOfList]
    rw [ih]
  | case4 t rest st hle sen pre post heq ih =>
    rw [injectList, if_neg hle, heq]
    simp only [textOfList]
    rw [ih]
    obtain ⟨-, heqt⟩ := findFirstMatch_spec heq
    rw [← heqt]
    simp [List.append_assoc]
  | case5 h cs rest st ih1 ih2 =>
    rw [injectList]
    simp only [textOfList]
    rw [ih1, ih2]

/-- The text-node contents of a forest, in document order (the strings the
`SHOW_TEXT` tree walker visits). -/
def textNodeStrings : List Dom → List (List Char)
  | [] => []
  | .text t :: rest => t :: textNodeStrings rest
  | .elem _ cs :: rest => textNodeStrings cs ++ textNodeStrings rest

/-- C7: injecting highlights and then immediately removing them restores
the document's concatenated text content exactly, for any sentence list
whose members occur verbatim in the document's text nodes (both passes
preserve text content, so the hypothesis mirrors the claim's premise). -/
theorem highlight_roundtrip (sentences : List String) (body : List Dom)
    (hocc : sentences.all (fun s =>
      (textNodeStrings body).any (fun t => includesSeq s.data t)) = true) :
    textOfList (removeHighlights (highlightSentences sentences body)) =
      textOfList body := by
  rw [textOf_removeHighlights, highlightSentences, textOf_injectList,
    textOf_removeHighlights]

/-- Witness for `highlight_roundtrip`: a concrete document containing the
target sentence verbatim. -/
theorem highlight_roundtrip_witness :
    textOfList (removeHighlights (highlightSentences ["Dogs bark."]
      [Dom.elem false [Dom.text "Cats purr. Dogs bark. End.".data]])) =
      textOfList [Dom.elem false [Dom.text "Cats purr. Dogs bark. End.".data]] :=
  highlight_roundtrip ["Dogs bark."]
    [Dom.elem false [Dom.text "Cats purr. Dogs bark. End.".data]]
    (by simp [textNodeStrings]; decide)

theorem markerTexts_nil_of_no_marker : ∀ l : List Dom,
    hasMarkerL l = false → markerTexts l = [] := by
  intro l
  induction l using markerTexts.induct with
  | case1 => intro _; rw [markerTexts]
  | case2 t rest ih =>
    intro h
    rw [hasMarkerL] at h
    rw [markerTexts]
    exact ih h
  | case3 cs rest ih1 ih2 =>
    intro h
    rw [hasMarkerL] at h
    cases h
  | case4 cs rest ih1 ih2 =>
    intro h
    rw [hasMarkerL] at h
    obtain ⟨h1, h2⟩ := Bool.or_eq_false_iff.mp h
    rw [markerTexts, ih1 h1, ih2 h2]
    rfl

theorem string_data_injective : Function.Injective String.data :=
  fun _ _ h => String.ext h

theorem inject_markers_perm : ∀ (l : List Dom) (st : InjSt),
    markerTexts l = [] →
    (markerTexts (injectList l st).1 ++
      ((injectList l st).2.remaining.map String.data)).Perm
      (st.remaining.map String.data) := by
  intro l st
  induction l, st using injectList.induct with
  | case1 st =>
    intro _
    rw [injectList, markerTexts]
    simp
  | case2 t rest st hle ih =>
    intro hm
    rw [markerTexts] at hm
    rw [injectList, if_pos hle]
    simp only [markerTexts]
    exact ih hm
  | case3 t rest st hle heq ih =>
    intro hm
    rw [markerTexts] at hm
    rw [injectList, if_neg hle, heq]
    simp only [markerTexts]
    exact ih hm
  | case4 t rest st hle sen pre post heq ih =>
    intro hm
    rw [markerTexts] at hm
    rw [injectList, if_neg hle, heq]
    simp only [markerTexts, textOfList, List.append_nil, List.nil_append]
    obtain ⟨hmem, -⟩ := findFirstMatch_spec heq
    have hperm1 := ih hm
    rw [List.cons_append]
    exact (hperm1.cons sen.data).trans
      (((List.perm_cons_erase hmem).map String.data).symm)
  | case5 h cs rest st ih1 ih2 =>
    intro hm
    cases h with
    | true =>
      rw [markerTexts] at hm
      cases hm
    | false =>
      rw [markerTexts] at hm
      obtain ⟨h1, h2⟩ := List.append_eq_nil.mp hm
      rw [injectList]
      simp only [markerTexts]
      have p2 := ih2 h2
      have p1 := ih1 h1
      rw [List.append_assoc]
      exact (List.Perm.append_left _ p2).trans p1

theorem inject_markers_count : ∀ (l : List Dom) (st : InjSt),
    markerTexts l = [] →
    (markerTexts (injectList l st).1).length ≤ textNodeCount l := by
  intro l st
  induction l, st using injectList.induct with
  | case1 st =>
    intro _
    rw [injectList, markerTexts, textNodeCount]
    simp
  | case2 t rest st hle ih =>
    intro hm
    rw [markerTexts] at hm
    rw [injectList, if_pos hle]
    simp only [markerTexts, textNodeCount]
    exact le_trans (ih hm) (by omega)
  | case3 t rest st hle heq ih =>
    intro hm
    rw [markerTexts] at hm
    rw [injectList, if_neg hle, heq]
    simp only [markerTexts, textNodeCount]
    exact le_trans (ih hm) (by omega)
  | case4 t rest st hle sen pre post heq ih =>
    intro hm
    rw [markerTexts] at hm
    rw [injectList, if_neg hle, heq]
    simp only [markerTexts, textNodeCount, List.length_cons,
      List.nil_append]
    have := ih hm
    omega
  | case5 h cs rest st ih1 ih2 =>
    intro hm
    cases h with
    | true =>
      rw [markerTexts] at hm
      cases hm
    | false =>
      rw [markerTexts] at hm
      obtain ⟨h1, h2⟩ := List.append_eq_nil.mp hm
      rw [injectList]
      simp only [markerTexts, textNodeCount, List.length_append]
      have := ih1 h1
      have := ih2 h2
      omega

theorem dedupAux_spec : ∀ (l seen : List String),
    (dedupAux seen l).Nodup ∧ ∀ x ∈ dedupAux seen l, x ∉ seen := by
  intro l
  induction l with
  | nil => intro seen; rw [dedupAux]; exact ⟨List.nodup_nil, by simp⟩
  | cons s rest ih =>
    intro seen
    rw [dedupAux]
    by_cases hs : seen.contains s = true
    · rw [if_pos hs]
      exact ih seen
    · rw [if_neg hs]
      have hns : s ∉ seen := by simpa using hs
      obtain ⟨hnd, hnotin⟩ := ih (s :: seen)
      refine ⟨List.nodup_cons.mpr ⟨?_, hnd⟩, ?_⟩
      · intro hmem
        exact hnotin s hmem (List.mem_cons_self _ _)
      · intro x hx
        rcases List.mem_cons.mp hx with rfl | hx2
        · exact hns
        · intro hxs
          exact hnotin x hx2 (List.mem_cons_of_mem _ hxs)

/-- C10: the injector deduplicates the trimmed nonempty sentences before
matching, so the marker texts of the resulting document are pairwise
distinct, each belongs to the deduplicated sentence set, their number
never exceeds the number of distinct nonempty trimmed input sentences, and
also never exceeds the number of text nodes walked (at most one wrap per
text node per pass). -/
theorem injector_dedup (sentences : List String) (body : List Dom) :
    (markerTexts (highlightSentences sentences body)).Nodup ∧
    (markerTexts (highlightSentences sentences body)).all
      (fun t => ((setList sentences).map String.data).contains t) = true ∧
    (markerTexts (highlightSentences sentences body)).length ≤
      (setList sentences).length ∧
    (markerTexts (highlightSentences sentences body)).length ≤
      textNodeCount (removeHighlights body) := by
  have h0 : markerTexts (removeHighlights body) = [] :=
    markerTexts_nil_of_no_marker _ (hasMarker_removeHighlights body)
  have hperm := inject_markers_perm (removeHighlights body)
    ⟨setList sentences, 0, sentences.length⟩ h0
  have hcount := inject_markers_count (removeHighlights body)
    ⟨setList sentences, 0, sentences.length⟩ h0
  have hnd : ((setList sentences).map String.data).Nodup :=
    (dedupAux_spec _ []).1.map string_data_injective
  have hndL : (markerTexts (injectList (removeHighlights body)
      ⟨setList sentences, 0, sentences.length⟩).1).Nodup := by
    have := (hperm.nodup_iff).mpr hnd
    exact List.Nodup.sublist (List.sublist_append_left _ _) this
  refine ⟨?_, ?_, ?_, ?_⟩
  · rw [highlightSentences]
    exact hndL
  · rw [highlightSentences]
    refine List.all_eq_true.mpr ?_
    intro t ht
    have : t ∈ (setList sentences).map String.data :=
      hperm.mem_iff.mp (List.mem_append_left _ ht)
    simpa using this
  · rw [highlightSentences]
    have hlen := hperm.length_eq
    rw [List.length_append, List.length_map, List.length_map] at hlen
    dsimp only at hlen
    omega
  · rw [highlightSentences]
    exact hcount

end Rifcare
